import Mathlib

/-
Verification development for the statutes data pipeline
(src/prepare_data_for_app.py, src/check_data.py, src/app.py,
src/version_1/app.py).  Python strings are modelled as lists of
characters, Python JSON values as the inductive type Json below, and the
standard-library json.loads as a fuel-indexed recursive-descent parser.
Exceptions are modelled with Option / Except.
-/

/-- Python strings are modelled as lists of characters. -/
abbrev Str := List Char

/-- Convert a Lean string literal into the character-list model. -/
def str (s : String) : Str := s.data

/-- The backtick character, head of the code-fence patterns. -/
def btChar : Char := Char.ofNat 96

/-- The single-quote character, used in validator messages. -/
def sqChar : Char := Char.ofNat 39

/-- A one-character string holding a single quote character. -/
def sqS : Str := [sqChar]

/-- The opening curly brace character. -/
def lbraceChar : Char := Char.ofNat 123

/-- The closing curly brace character. -/
def rbraceChar : Char := Char.ofNat 125

/-- Fuel-indexed worker for Python str.replace: replaces non-overlapping
occurrences of pat left to right.  The fuel is always instantiated with the
length of the input, which suffices for a non-empty pattern. -/
def replaceAllF (pat repl : Str) : Nat → Str → Str
  | 0, l => l
  | _ + 1, [] => []
  | fuel + 1, c :: rest =>
    if pat.isPrefixOf (c :: rest) then
      repl ++ replaceAllF pat repl fuel ((c :: rest).drop pat.length)
    else
      c :: replaceAllF pat repl fuel rest

/-- Python str.replace(pat, repl) for a non-empty pattern. -/
def replaceAll (pat repl l : Str) : Str := replaceAllF pat repl l.length l

/-- The whitespace characters stripped by Python str.strip(). -/
def pyWs (c : Char) : Bool :=
  c = ' ' || c = '\t' || c = '\n' || c = '\r' || c = Char.ofNat 11 || c = Char.ofNat 12

/-- Left part of Python str.strip(). -/
def pyLStrip (l : Str) : Str := l.dropWhile pyWs

/-- Right part of Python str.strip(). -/
def pyRStrip (l : Str) : Str := (l.reverse.dropWhile pyWs).reverse

/-- Python str.strip(). -/
def pyStrip (l : Str) : Str := pyRStrip (pyLStrip l)

/-- The truncation step of the effect extractor: s[:s.rfind("]") + 1].
When no closing bracket occurs, Python rfind returns -1 and the slice is
empty, which coincides with dropping every character. -/
def truncLastBr (l : Str) : Str := (l.reverse.dropWhile (fun c => !(c == ']'))).reverse

/-- Model of a decoded Python JSON value.  Numbers keep their raw lexeme,
which is enough for this pipeline (no claim computes with numbers). -/
inductive Json where
  | null
  | bool (b : Bool)
  | num (lit : Str)
  | str (s : Str)
  | arr (items : List Json)
  | obj (members : List (Str × Json))

/-- First-match association lookup, modelling Python dict indexing on
JSON-decoded dictionaries (whose keys are unique). -/
def lookupL {β : Type} : List (Str × β) → Str → Option β
  | [], _ => none
  | (k0, v) :: rest, k => if k0 = k then some v else lookupL rest k

/-- Python d[k] on a JSON value: a KeyError or a TypeError is none. -/
def jGet (j : Json) (k : Str) : Option Json :=
  match j with
  | .obj kvs => lookupL kvs k
  | _ => none

/-- The whitespace characters skipped by the json.loads scanner. -/
def jWs (c : Char) : Bool := c = ' ' || c = '\t' || c = '\n' || c = '\r'

/-- Skip json.loads whitespace. -/
def skipJWs (l : Str) : Str := l.dropWhile jWs

/-- Hexadecimal digit value, for the \'\'u escape of JSON strings. -/
def hexVal (c : Char) : Option Nat :=
  if c.isDigit then some (c.toNat - 48)
  else if 97 ≤ c.toNat ∧ c.toNat ≤ 102 then some (c.toNat - 87)
  else if 65 ≤ c.toNat ∧ c.toNat ≤ 70 then some (c.toNat - 55)
  else none

/-- The two-character escapes accepted inside JSON string literals. -/
def escMap (e : Char) : Option Char :=
  if e = '"' then some '"'
  else if e = '\\' then some '\\'
  else if e = '/' then some '/'
  else if e = 'b' then some (Char.ofNat 8)
  else if e = 'f' then some (Char.ofNat 12)
  else if e = 'n' then some (Char.ofNat 10)
  else if e = 'r' then some (Char.ofNat 13)
  else if e = 't' then some (Char.ofNat 9)
  else none

/-- Body of a JSON string literal, after the opening quote.  Control
characters are rejected (json.loads strict mode); basic \'\'u escapes are
decoded (surrogate halves, which Lean Char cannot hold, are rejected -
a simplification of json.loads that no theorem below exercises). -/
def parseStrBody : Str → Option (Str × Str)
  | [] => none
  | c :: rest =>
    if c = '"' then some ([], rest)
    else if c = '\\' then
      match rest with
      | 'u' :: h1 :: h2 :: h3 :: h4 :: rest2 => do
        let v1 ← hexVal h1
        let v2 ← hexVal h2
        let v3 ← hexVal h3
        let v4 ← hexVal h4
        let n := ((v1 * 16 + v2) * 16 + v3) * 16 + v4
        if n < 55296 ∨ (57344 ≤ n ∧ n < 1114112) then
          let p ← parseStrBody rest2
          pure (Char.ofNat n :: p.1, p.2)
        else none
      | e :: rest2 => do
        let ce ← escMap e
        let p ← parseStrBody rest2
        pure (ce :: p.1, p.2)
      | [] => none
    else if c.toNat < 32 then none
    else do
      let p ← parseStrBody rest
      pure (c :: p.1, p.2)

/-- Characters that may continue a JSON number lexeme. -/
def numTailChar (c : Char) : Bool :=
  c.isDigit || c = '-' || c = '+' || c = '.' || c = 'e' || c = 'E'

/-- Lex a JSON number, keeping the raw lexeme. -/
def parseNum (l : Str) : Option (Json × Str) :=
  let lex := l.takeWhile numTailChar
  if lex.any Char.isDigit then some (.num lex, l.drop lex.length) else none

mutual

/-- Recursive-descent JSON value parser modelling json.loads.  The fuel
decreases on each nested call; jsonParse supplies input length + 1, which
is always sufficient because every recursive call consumes input. -/
def parseValue : Nat → Str → Option (Json × Str)
  | 0, _ => none
  | fuel + 1, l =>
    match skipJWs l with
    | [] => none
    | c :: rest =>
      if c = '"' then (parseStrBody rest).map (fun p => (Json.str p.1, p.2))
      else if c = '[' then
        match skipJWs rest with
        | c2 :: rest2 =>
          if c2 = ']' then some (.arr [], rest2) else parseItems fuel (c2 :: rest2) []
        | [] => none
      else if c = lbraceChar then
        match skipJWs rest with
        | c2 :: rest2 =>
          if c2 = rbraceChar then some (.obj [], rest2) else parseMembers fuel (c2 :: rest2) []
        | [] => none
      else if c = 'n' then
        match rest with
        | 'u' :: 'l' :: 'l' :: r => some (.null, r)
        | _ => none
      else if c = 't' then
        match rest with
        | 'r' :: 'u' :: 'e' :: r => some (.bool true, r)
        | _ => none
      else if c = 'f' then
        match rest with
        | 'a' :: 'l' :: 's' :: 'e' :: r => some (.bool false, r)
        | _ => none
      else parseNum (c :: rest)

/-- Parse the items of a non-empty JSON array, after the opening bracket. -/
def parseItems : Nat → Str → List Json → Option (Json × Str)
  | 0, _, _ => none
  | fuel + 1, l, acc => do
    let p ← parseValue fuel l
    match skipJWs p.2 with
    | c :: r2 =>
      if c = ',' then parseItems fuel r2 (acc ++ [p.1])
      else if c = ']' then some (.arr (acc ++ [p.1]), r2)
      else none
    | [] => none

/-- Parse the members of a non-empty JSON object, after the opening brace. -/
def parseMembers : Nat → Str → List (Str × Json) → Option (Json × Str)
  | 0, _, _ => none
  | fuel + 1, l, acc =>
    match skipJWs l with
    | c :: rest =>
      if c = '"' then do
        let pk ← parseStrBody rest
        match skipJWs pk.2 with
        | c2 :: r2 =>
          if c2 = ':' then do
            let pv ← parseValue fuel r2
            match skipJWs pv.2 with
            | c3 :: r3 =>
              if c3 = ',' then parseMembers fuel r3 (acc ++ [(pk.1, pv.1)])
              else if c3 = rbraceChar then some (.obj (acc ++ [(pk.1, pv.1)]), r3)
              else none
            | [] => none
          else none
        | [] => none
      else none
    | [] => none

end

/-- json.loads: parse one value and require only whitespace afterwards. -/
def jsonParse (l : Str) : Option Json := do
  let p ← parseValue (l.length + 1) l
  if skipJWs p.2 = [] then some p.1 else none

/-- The repair steps of the effect extractor (prepare_data_for_app.py main,
lines 111-116): remove the json code fence opener, remove remaining fences,
strip whitespace, truncate after the last closing bracket. -/
def repairEffect (s : Str) : Str :=
  truncLastBr (pyStrip (replaceAll (str "```") [] (replaceAll (str "```json") [] s)))

/-- One step of the list comprehension filtering decoded tags against the
controlled vocabulary: evaluates tag["effect"] in LIST_OF_EFFECTS.  A
missing key or a non-subscriptable tag raises, modelled by none; a
non-string effect value simply compares unequal to every vocabulary term. -/
def keepTag (vocab : List Str) (tag : Json) : Option Bool := do
  let v ← jGet tag (str "effect")
  match v with
  | .str s => pure (decide (s ∈ vocab))
  | _ => pure false

/-- The vocabulary filter over the items of the decoded array. -/
def goFilter (vocab : List Str) : List Json → Option (List Json)
  | [] => some []
  | tag :: rest => do
    let keep ← keepTag vocab tag
    let restR ← goFilter vocab rest
    pure (if keep then tag :: restR else restR)

/-- tag_list = [tag for tag in tag_list if tag["effect"] in LIST_OF_EFFECTS]:
iterating anything but a decoded array raises, modelled by none. -/
def filterEffects (vocab : List Str) : Json → Option (List Json)
  | .arr items => goFilter vocab items
  | _ => none

/-- Repair, decode and filter one raw effect string, the composition the
effect extractor applies per unit. -/
def decodeAndFilter (vocab : List Str) (s : Str) : Option (List Json) :=
  (jsonParse (repairEffect s)).bind (filterEffects vocab)

/-- One level of a CodeUnit hierarchical location.  Each field holds none
when the key is absent from the division dictionary, and some of an
arbitrary JSON value (possibly null) when present. -/
structure Division where
  type : Option Json
  number : Option Json
  name : Option Json

/-- Join strings with a separator, as str.join does. -/
def joinWith (sep : Str) : List Str → Str
  | [] => []
  | [x] => x
  | x :: xs => x ++ sep ++ joinWith sep xs

mutual

/-- Python repr of a JSON value (containers are shown Python-style).
Only the scalar cases are exercised by the theorems below. -/
def pyRepr : Json → Str
  | .null => str "None"
  | .bool true => str "True"
  | .bool false => str "False"
  | .num lit => lit
  | .str s => sqS ++ s ++ sqS
  | .arr items => '[' :: joinWith (str ", ") (pyReprList items) ++ [']']
  | .obj kvs => lbraceChar :: joinWith (str ", ") (pyReprMembers kvs) ++ [rbraceChar]

/-- repr of the items of a list value. -/
def pyReprList : List Json → List Str
  | [] => []
  | j :: rest => pyRepr j :: pyReprList rest

/-- repr of the members of a dict value. -/
def pyReprMembers : List (Str × Json) → List Str
  | [] => []
  | kv :: rest => (sqS ++ kv.1 ++ sqS ++ str ": " ++ pyRepr kv.2) :: pyReprMembers rest

end

/-- Python str() of a JSON value, as used by f-string interpolation. -/
def pyStr : Json → Str
  | .str s => s
  | .null => str "None"
  | .bool true => str "True"
  | .bool false => str "False"
  | .num lit => lit
  | j => pyRepr j

/-- The merge_tags segment body (prepare_data_for_app.py lines 52-55):
division.get with empty-string defaults, interpolated by str(). -/
def boolSegCore (d : Division) : Str :=
  pyStr (d.type.getD (.str [])) ++ str " " ++ pyStr (d.number.getD (.str [])) ++ str " - " ++
    pyStr (d.name.getD (.str []))

/-- One merge_tags path segment including the separator. -/
def boolSegment (d : Division) : Str := boolSegCore d ++ str " > "

/-- Python s[:-3]. -/
def pySliceDropLast3 (l : Str) : Str := l.take (l.length - 3)

/-- The merge_tags path builder (lines 50-56): concatenate the segments and
remove the trailing separator with path[:-3]. -/
def mergeTagsPathString (divs : List Division) : Str :=
  pySliceDropLast3 ((divs.map boolSegment).flatten)

/-- Reading a value that must be a string: attribute access such as
endswith on anything else raises, modelled by none. -/
def asJStr : Json → Option Str
  | .str s => some s
  | _ => none

/-- Remove one trailing period (division name normalization in main,
lines 125-126). -/
def stripOneDot (s : Str) : Str := if s.getLast? = some '.' then s.dropLast else s

/-- One path segment of the main (fuzzy) pipeline (lines 122-128):
division["name"] must be present and a string (otherwise the per-unit
exception handler fires); type and number must be present and are
interpolated by str(). -/
def fuzzySegment (d : Division) : Option Str := do
  let nmV ← d.name
  let nm ← asJStr nmV
  let t ← d.type
  let n ← d.number
  pure (pyStr t ++ str " " ++ pyStr n ++ str " - " ++ stripOneDot nm ++ str " > ")

/-- The main (fuzzy) pipeline path builder: concatenation of the segments,
keeping the trailing separator. -/
def mainPathString : List Division → Option Str
  | [] => some []
  | d :: rest => do
    let s ← fuzzySegment d
    let p ← mainPathString rest
    pure (s ++ p)

/-- A code unit as read from the jurisdiction JSONL file, restricted to the
fields the pipeline touches. -/
structure Mcu where
  unique_id : Str
  full_name : Str
  jurisdiction : Str
  year : Int
  full_text : Str
  path : List Division

/-- An assembled record of the fuzzy pipeline (new_mcu, lines 134-142). -/
structure Record where
  unique_id : Str
  full_name : Str
  path : Str
  jurisdiction : Str
  year : Int
  text : Str
  legal_effects : List Json

/-- The body of the per-unit try block (lines 110-143): repair and decode
the effect string, build the path, filter the tags, assemble the record.
Any exception yields none and is counted by the caller. -/
def processUnit (vocab : List Str) (v : Json) (mcu : Mcu) : Option Record := do
  let s ← asJStr v
  let j ← jsonParse (repairEffect s)
  let p ← mainPathString mcu.path
  let tags ← filterEffects vocab j
  pure { unique_id := mcu.unique_id, full_name := p ++ str " > " ++ mcu.full_name,
         path := p, jurisdiction := mcu.jurisdiction, year := mcu.year,
         text := mcu.full_text, legal_effects := tags }

/-- The main loop of prepare_data_for_app.py (lines 107-146).  The
annotation lookup tag_output_dict[mcu["unique_id"]] happens before the try
block, so a missing key aborts the whole run (modelled by Except.error
carrying the offending id); inside the try block a failure drops the unit
and increments the error counter. -/
def mainLoop (vocab : List Str) (tagDict : List (Str × Json)) : List Mcu → Except Str (List Record × Nat)
  | [] => .ok ([], 0)
  | mcu :: rest =>
    match lookupL tagDict mcu.unique_id with
    | none => .error mcu.unique_id
    | some v =>
      match processUnit vocab v mcu with
      | some r =>
        match mainLoop vocab tagDict rest with
        | .ok p => .ok (r :: p.1, p.2)
        | .error e => .error e
      | none =>
        match mainLoop vocab tagDict rest with
        | .ok p => .ok (p.1, p.2 + 1)
        | .error e => .error e

/-- The scanning loop of map_to_effect (lines 77-84), parametric in the
similarity scorer (fuzz.partial_ratio of the external fuzzywuzzy library,
an integer in [0, 100]).  State: best match so far and its score. -/
def mapLoop (score : Str → Str → Nat) (generated : Str) : List Str → Option Str → Nat → Option Str × Nat
  | [], best, bs => (best, bs)
  | e :: rest, best, bs =>
    let s := score generated e
    if bs < s then mapLoop score generated rest (some e) s
    else mapLoop score generated rest best bs

/-- map_to_effect (lines 74-86): best_match starts as None with score 0 and
is replaced only on a strictly larger score. -/
def map_to_effect (score : Str → Str → Nat) (generated : Str) (vocab : List Str) : Option Str :=
  (mapLoop score generated vocab none 0).1

/-- A well-formed effect annotation entry, the shape documented for the
LLM output (effect, explanation, sections). -/
structure EffectObj where
  effect : Str
  explanation : Str
  sections : List Str

/-- Serialize a string without escapes; coincides with JSON serialization
on strings of plain characters. -/
def serStr (s : Str) : Str := '"' :: s ++ ['"']

/-- Serialize a sections list. -/
def serSecs (ss : List Str) : Str := '[' :: joinWith [','] (ss.map serStr) ++ [']']

/-- Serialize one effect object in canonical compact JSON form. -/
def serEffect (e : EffectObj) : Str :=
  lbraceChar ::
    (serStr (str "effect") ++ [':'] ++ serStr e.effect ++ [','] ++
     serStr (str "explanation") ++ [':'] ++ serStr e.explanation ++ [','] ++
     serStr (str "sections") ++ [':'] ++ serSecs e.sections) ++ [rbraceChar]

/-- Serialize a well-formed JSON array of effect objects. -/
def serEffects (l : List EffectObj) : Str := '[' :: joinWith [','] (l.map serEffect) ++ [']']

/-- The JSON value an effect object decodes to. -/
def effToJson (e : EffectObj) : Json :=
  .obj [(str "effect", .str e.effect), (str "explanation", .str e.explanation),
        (str "sections", .arr (e.sections.map .str))]

/-- A character that needs no JSON escaping and is not a backtick (so code
fence removal cannot touch it). -/
def plainChar (c : Char) : Bool :=
  !(c == '"') && !(c == '\\') && !(c == btChar) && decide (32 ≤ c.toNat)

/-- A string of plain characters. -/
def plainStr (s : Str) : Bool := s.all plainChar

/-- An effect object whose strings are all plain. -/
def plainEffect (e : EffectObj) : Bool :=
  plainStr e.effect && plainStr e.explanation && e.sections.all plainStr

/-- The required fields of a statute entry (check_data.py line 18). -/
def requiredFieldsV : List Str := [str "title", str "content"]

/-- The recognized tag specificity levels (line 29). -/
def expectedLevelsV : List Str :=
  [str "highly_specific", str "specific", str "moderately_specific", str "general"]

/-- The expected top-level fields (line 73). -/
def expectedFieldsV : List Str := [str "title", str "url", str "content", str "tags"]

/-- Decimal rendering of a natural number. -/
def natStr (n : Nat) : Str := (Nat.repr n).data

/-- Validator message: missing required field. -/
def msgMissingField (f : Str) : Str := str "  - Missing required field: " ++ sqS ++ f ++ sqS

/-- Validator message: tags is not a dictionary. -/
def msgTagsNotDict : Str := str "  - " ++ sqS ++ str "tags" ++ sqS ++ str " field is not a dictionary"

/-- Validator message: unexpected tag level. -/
def msgUnexpectedLevel (lv : Str) : Str := str "  - Unexpected tag level: " ++ sqS ++ lv ++ sqS

/-- Validator message: a tag level is not a list. -/
def msgLevelNotList (lv : Str) : Str := str "  - Tag level " ++ sqS ++ lv ++ sqS ++ str " is not a list"

/-- Validator message: non-string tag at an index of a level. -/
def msgNonStringTag (lv : Str) (i : Nat) : Str :=
  str "  - Non-string tag found at level " ++ sqS ++ lv ++ sqS ++ str ", index " ++ natStr i

/-- Validator message: missing url. -/
def msgMissingUrl : Str := str "  - Missing " ++ sqS ++ str "url" ++ sqS ++ str " field (optional but recommended)"

/-- Validator message: content is not a string. -/
def msgContentNotStr : Str := str "  - " ++ sqS ++ str "content" ++ sqS ++ str " field is not a string"

/-- Validator message: content lacks a main title heading. -/
def msgNoTitleHeading : Str := str "  - " ++ sqS ++ str "content" ++ sqS ++ str " does not have a main title (# heading)"

/-- Validator message: content lacks section headings. -/
def msgNoSections : Str := str "  - " ++ sqS ++ str "content" ++ sqS ++ str " does not have any sections (## headings)"

/-- Validator message: content lacks citations. -/
def msgNoCitations : Str := str "  - " ++ sqS ++ str "content" ++ sqS ++ str " appears to be missing citations"

/-- Validator message: nested dictionary inside a tag level. -/
def msgNestedTags (lv : Str) : Str :=
  str "  - Nested dictionary found in tags at level " ++ sqS ++ lv ++ sqS ++ str " (should be a list)"

/-- Validator message: unexpected top-level field. -/
def msgUnexpectedField (f : Str) : Str := str "  - Unexpected field: " ++ sqS ++ f ++ sqS

/-- One position of re.search for the pattern hash-space-dot-plus: a hash,
a space, then at least one character other than a newline. -/
def matchH1At : Str → Bool
  | '#' :: ' ' :: c :: _ => !(c == '\n')
  | _ => false

/-- One position of re.search for two hashes, a space, and a character. -/
def matchH2At : Str → Bool
  | '#' :: '#' :: ' ' :: c :: _ => !(c == '\n')
  | _ => false

/-- re.search of the main-title pattern anywhere in the content. -/
def hasH1 (s : Str) : Bool := s.tails.any matchH1At

/-- re.search of the section pattern anywhere in the content. -/
def hasH2 (s : Str) : Bool := s.tails.any matchH2At

/-- re.search of the literal Citation: token anywhere in the content. -/
def hasCitation (s : Str) : Bool := s.tails.any (fun t => (str "Citation:").isPrefixOf t)

/-- Messages of the non-string-tag scan of one level (lines 40-42),
with enumerate indices. -/
def nonStringTagMsgs (lv : Str) : Nat → List Json → List Str
  | _, [] => []
  | i, t :: rest =>
    (match t with | .str _ => [] | _ => [msgNonStringTag lv i]) ++ nonStringTagMsgs lv (i + 1) rest

/-- The list check of one tag level (lines 35-42). -/
def checkLevel (lv : Str) : Json → List Str
  | .arr tags => nonStringTagMsgs lv 0 tags
  | _ => [msgLevelNotList lv]

/-- validate_statute_structure (check_data.py lines 13-78) on one decoded
entry.  A non-dictionary entry eventually raises (at the latest at
statute.keys()), modelled by Except.error; a dictionary entry is checked
field by field in source order and never raises. -/
def validateStatute : Json → Except Unit (List Str)
  | .obj d =>
    let ks := d.map (fun kv => kv.1)
    let e1 := (requiredFieldsV.filter (fun f => decide (f ∉ ks))).map msgMissingField
    let e2 :=
      match lookupL d (str "tags") with
      | some (.obj td) =>
        ((td.map (fun kv => kv.1)).filter (fun lv => decide (lv ∉ expectedLevelsV))).map msgUnexpectedLevel
          ++ (td.map (fun kv => checkLevel kv.1 kv.2)).flatten
      | some _ => [msgTagsNotDict]
      | none => []
    let e3 := if (str "url") ∈ ks then [] else [msgMissingUrl]
    let e4 :=
      match lookupL d (str "content") with
      | some (.str c) =>
        (if hasH1 c then [] else [msgNoTitleHeading])
          ++ (if hasH2 c then [] else [msgNoSections])
          ++ (if hasCitation c then [] else [msgNoCitations])
      | some _ => [msgContentNotStr]
      | none => []
    let e5 :=
      match lookupL d (str "tags") with
      | some (.obj td) =>
        td.filterMap (fun kv => match kv.2 with | .obj _ => some (msgNestedTags kv.1) | _ => none)
      | _ => []
    let e6 := (ks.filter (fun f => decide (f ∉ expectedFieldsV))).map msgUnexpectedField
    .ok (e1 ++ e2 ++ e3 ++ e4 ++ e5 ++ e6)
  | _ => .error ()

/-- The validation loop of check_data.py main (lines 107-115): total issue
count over the entries, stopping at the first entry that raises. -/
def runValidate : List Json → Except Unit Nat
  | [] => .ok 0
  | s :: rest => do
    let es ← validateStatute s
    let n ← runValidate rest
    .ok (es.length + n)

/-- The process exit status of check_data.py.  The input is none on a read
or JSON-decode failure (main returns 1); a non-list top level returns 1;
otherwise the entries are validated and main returns 0 exactly on a zero
total.  An unhandled exception while validating also ends the process
with status 1 (the Python interpreter exit code for an uncaught error). -/
def checkDataExit : Option Json → Nat
  | none => 1
  | some (.arr entries) =>
    match runValidate entries with
    | .error _ => 1
    | .ok n => if n = 0 then 0 else 1
  | some _ => 1

/-- Zero issues are found across all entries: the input decodes to a list
and every entry is validated to completion with no issue strings. -/
def zeroIssuesFound (input : Option Json) : Prop :=
  ∃ entries, input = some (Json.arr entries) ∧ runValidate entries = .ok 0

/-- A row of the artifact as read by src/app.py (boolean-tag variant). -/
structure RowA where
  unique_id : Str
  tag_list : List Str

/-- One legal-effect entry of a row as read by src/version_1/app.py. -/
structure EffectRow where
  effect : Str
  explanation : Str

/-- A row of the artifact as read by src/version_1/app.py. -/
structure RowB where
  unique_id : Str
  legal_effects : List EffectRow

/-- dict.setdefault(k, []).append(v): append v to the list under k,
creating the key at the end (Python dict insertion order) if absent. -/
def sdAppend {β : Type} : List (Str × List β) → Str → β → List (Str × List β)
  | [], k, v => [(k, [v])]
  | (k0, vs) :: rest, k, v =>
    if k0 = k then (k0, vs ++ [v]) :: rest else (k0, vs) :: sdAppend rest k v

/-- d[k] = v on a Python dict: overwrite in place or insert at the end. -/
def setKey {β : Type} : List (Str × β) → Str → β → List (Str × β)
  | [], k, v => [(k, v)]
  | (k0, v0) :: rest, k, v =>
    if k0 = k then (k0, v) :: rest else (k0, v0) :: setKey rest k v

/-- The index-building loop of src/app.py load_data (lines 17-20): for each
row, append the row id under every tag of its tag_list, then map the id to
the row index (the assignment is outside the tag loop). -/
def loadRowsA : List RowA → Nat → List (Str × List Str) → List (Str × Nat) →
    List (Str × List Str) × List (Str × Nat)
  | [], _, tm, im => (tm, im)
  | r :: rest, i, tm, im =>
    loadRowsA rest (i + 1) (r.tag_list.foldl (fun acc tag => sdAppend acc tag r.unique_id) tm)
      (setKey im r.unique_id i)

/-- load_data of src/app.py: tag_to_id and id_to_idx built from scratch. -/
def load_dataA (rows : List RowA) : List (Str × List Str) × List (Str × Nat) :=
  loadRowsA rows 0 [] []

/-- The inner loop of src/version_1/app.py load_data (lines 17-21): for
each effect of a row, append the (id, explanation) pair under the effect
name and set the id-to-index entry (the assignment is inside the loop). -/
def loadRowB (uid : Str) (i : Nat) : List EffectRow → List (Str × List (Str × Str)) →
    List (Str × Nat) → List (Str × List (Str × Str)) × List (Str × Nat)
  | [], em, im => (em, im)
  | ef :: rest, em, im =>
    loadRowB uid i rest (sdAppend em ef.effect (uid, ef.explanation)) (setKey im uid i)

/-- The row loop of src/version_1/app.py load_data. -/
def loadRowsB : List RowB → Nat → List (Str × List (Str × Str)) → List (Str × Nat) →
    List (Str × List (Str × Str)) × List (Str × Nat)
  | [], _, em, im => (em, im)
  | r :: rest, i, em, im =>
    let p := loadRowB r.unique_id i r.legal_effects em im
    loadRowsB rest (i + 1) p.1 p.2

/-- load_data of src/version_1/app.py: effect_to_id and id_to_idx. -/
def load_dataB (rows : List RowB) : List (Str × List (Str × Str)) × List (Str × Nat) :=
  loadRowsB rows 0 [] []


/-- A division whose three fields are present strings and whose name has no
trailing period, so that both path builders render it identically. -/
def wfDiv (d : Division) : Bool :=
  match d.type, d.number, d.name with
  | some (.str _), some (.str _), some (.str nm) => decide (nm.getLast? ≠ some '.')
  | _, _, _ => false

/-- A unit that the main loop keeps: its id resolves in the annotation
dictionary and the per-unit try block succeeds. -/
def unitOk (vocab : List Str) (tagDict : List (Str × Json)) (m : Mcu) : Bool :=
  match lookupL tagDict m.unique_id with
  | some v => (processUnit vocab v m).isSome
  | none => false

/-- Total number of section strings of a list of effect objects (used to
budget parser fuel). -/
def sumSecs : List EffectObj → Nat
  | [] => 0
  | e :: rest => e.sections.length + sumSecs rest

/-- The best score the scanning loop can reach over a vocabulary list. -/
def bestScore (score : Str → Str → Nat) (generated : Str) : List Str → Nat
  | [] => 0
  | e :: rest => max (score generated e) (bestScore score generated rest)
theorem replaceAllF_nil (pat repl : Str) (f : Nat) : replaceAllF pat repl f [] = [] := by
  cases f <;> rfl

theorem replaceAllF_fuel (pat repl : Str) (hp : pat ≠ []) :
    ∀ (f1 f2 : Nat) (l : Str), l.length ≤ f1 → l.length ≤ f2 →
      replaceAllF pat repl f1 l = replaceAllF pat repl f2 l := by
  have hplen : 1 ≤ pat.length := by
    cases pat with
    | nil => exact absurd rfl hp
    | cons _ _ => simp
  intro f1
  induction f1 with
  | zero =>
    intro f2 l h1 _
    have : l = [] := List.eq_nil_of_length_eq_zero (Nat.le_zero.mp h1)
    subst this
    rw [replaceAllF_nil, replaceAllF_nil]
  | succ f ih =>
    intro f2 l h1 h2
    cases l with
    | nil => rw [replaceAllF_nil, replaceAllF_nil]
    | cons c rest =>
      cases f2 with
      | zero => simp at h2
      | succ g =>
        rw [List.length_cons] at h1 h2
        have h1' : rest.length ≤ f := Nat.le_of_succ_le_succ h1
        have h2' : rest.length ≤ g := Nat.le_of_succ_le_succ h2
        show replaceAllF pat repl (f + 1) (c :: rest) = replaceAllF pat repl (g + 1) (c :: rest)
        rw [replaceAllF, replaceAllF]
        cases hpre : pat.isPrefixOf (c :: rest) with
        | true =>
          simp only [if_true]
          congr 1
          have hdl : ((c :: rest).drop pat.length).length = rest.length + 1 - pat.length := by
            rw [List.length_drop, List.length_cons]
          exact ih g ((c :: rest).drop pat.length) (by omega) (by omega)
        | false =>
          simp only [Bool.false_eq_true, if_false]
          congr 1
          exact ih g rest h1' h2'

theorem replaceAll_nil (pat repl : Str) : replaceAll pat repl [] = [] := rfl

theorem replaceAll_pos (pat repl l : Str) (hp : pat ≠ []) (h : pat.isPrefixOf l) :
    replaceAll pat repl l = repl ++ replaceAll pat repl (l.drop pat.length) := by
  cases l with
  | nil =>
    have : pat = [] := by
      cases pat with
      | nil => rfl
      | cons a as => simp [List.isPrefixOf] at h
    exact absurd this hp
  | cons c rest =>
    show replaceAllF pat repl (c :: rest).length (c :: rest) = _
    rw [show (c :: rest).length = rest.length + 1 from rfl, replaceAllF]
    simp only [h, if_true]
    congr 1
    apply replaceAllF_fuel pat repl hp
    · have : 1 ≤ pat.length := by
        cases pat with
        | nil => exact absurd rfl hp
        | cons _ _ => simp
      rw [List.length_drop]
      simp
      omega
    · exact Nat.le_refl _

theorem replaceAll_neg (pat repl : Str) (c : Char) (l : Str)
    (h : pat.isPrefixOf (c :: l) = false) :
    replaceAll pat repl (c :: l) = c :: replaceAll pat repl l := by
  show replaceAllF pat repl (c :: l).length (c :: l) = _
  rw [show (c :: l).length = l.length + 1 from rfl, replaceAllF]
  simp only [h, Bool.false_eq_true, if_false]
  rfl

theorem isPrefixOf_cons_false (p0 : Char) (pt : Str) (c : Char) (l : Str) (h : p0 ≠ c) :
    (p0 :: pt).isPrefixOf (c :: l) = false := by
  simp [List.isPrefixOf, h]

theorem replaceAll_append_nmem (pat repl : Str) (p0 : Char) (pt : Str)
    (hpat : pat = p0 :: pt) (a b : Str) (ha : p0 ∉ a) :
    replaceAll pat repl (a ++ b) = a ++ replaceAll pat repl b := by
  induction a with
  | nil => simp
  | cons c a' ih =>
    have hne : p0 ≠ c := fun h => ha (h ▸ List.mem_cons_self c a')
    have : pat.isPrefixOf (c :: (a' ++ b)) = false := by
      rw [hpat]; exact isPrefixOf_cons_false p0 pt c _ hne
    rw [List.cons_append, replaceAll_neg pat repl c (a' ++ b) this,
        ih (fun h => ha (List.mem_cons_of_mem c h))]
    rfl

theorem mem_replaceAllF_empty_repl (pat : Str) (c : Char) :
    ∀ (f : Nat) (l : Str), c ∉ l → c ∉ replaceAllF pat [] f l := by
  intro f
  induction f with
  | zero => intro l h; exact h
  | succ f ih =>
    intro l h
    cases l with
    | nil => simp [replaceAllF_nil]
    | cons d rest =>
      rw [replaceAllF]
      by_cases hpre : pat.isPrefixOf (d :: rest)
      · simp only [hpre, if_true, List.nil_append]
        exact ih _ (fun hm => h (List.drop_subset _ _ hm))
      · simp only [hpre, if_false]
        intro hm
        rcases List.mem_cons.mp hm with h1 | h2
        · exact h (h1 ▸ List.mem_cons_self d rest)
        · exact ih rest (fun hr => h (List.mem_cons_of_mem d hr)) h2

theorem mem_replaceAll_empty_repl (pat : Str) (c : Char) (l : Str) (h : c ∉ l) :
    c ∉ replaceAll pat [] l := mem_replaceAllF_empty_repl pat c l.length l h

theorem dropWhile_append_of_all (p : Char → Bool) (x y : Str) (hx : ∀ c ∈ x, p c = true) :
    (x ++ y).dropWhile p = y.dropWhile p := by
  induction x with
  | nil => rfl
  | cons c x' ih =>
    rw [List.cons_append, List.dropWhile_cons]
    simp only [hx c (List.mem_cons_self c x'), if_true]
    exact ih (fun d hd => hx d (List.mem_cons_of_mem c hd))

theorem mem_dropWhile (p : Char → Bool) (c : Char) (l : Str) (h : c ∉ l) :
    c ∉ l.dropWhile p := by
  induction l with
  | nil => simp
  | cons d rest ih =>
    rw [List.dropWhile_cons]
    by_cases hp : p d
    · simp only [hp, if_true]
      exact ih (fun hm => h (List.mem_cons_of_mem d hm))
    · simp only [hp, if_false]
      exact h

theorem mem_pyStrip (c : Char) (l : Str) (h : c ∉ l) : c ∉ pyStrip l := by
  unfold pyStrip pyRStrip pyLStrip
  intro hm
  rw [List.mem_reverse] at hm
  have h1 : c ∉ l.dropWhile pyWs := mem_dropWhile pyWs c l h
  have h2 : c ∉ (l.dropWhile pyWs).reverse := by rwa [List.mem_reverse]
  exact mem_dropWhile pyWs c _ h2 hm

theorem truncLastBr_nil_of_nmem (l : Str) (h : ']' ∉ l) : truncLastBr l = [] := by
  unfold truncLastBr
  have : l.reverse.dropWhile (fun c => !(c == ']')) = [] := by
    rw [List.dropWhile_eq_nil_iff]
    intro x hx
    have : x ≠ ']' := fun he => h (he ▸ (List.mem_reverse.mp hx))
    simp [this]
  rw [this, List.reverse_nil]

theorem truncLastBr_append (a b : Str) (hb : ']' ∉ b) :
    truncLastBr ((a ++ [']']) ++ b) = a ++ [']'] := by
  unfold truncLastBr
  rw [List.reverse_append, List.reverse_append]
  have hall : ∀ c ∈ b.reverse, (fun c => !(c == ']')) c = true := by
    intro c hc
    have : c ≠ ']' := fun he => hb (he ▸ (List.mem_reverse.mp hc))
    simp [this]
  rw [dropWhile_append_of_all _ _ _ hall]
  show (List.dropWhile _ ((']' :: List.nil) ++ a.reverse)).reverse = _
  rw [List.cons_append, List.dropWhile_cons]
  simp

theorem getLast?_append_right (x y : Str) (hy : y ≠ []) : (x ++ y).getLast? = y.getLast? := by
  exact List.getLast?_append_of_ne_nil x hy

theorem fuzzySegment_of_wf (d : Division) (h : wfDiv d = true) :
    fuzzySegment d = some (boolSegment d) := by
  obtain ⟨dt, dn, dm⟩ := d
  unfold wfDiv at h
  split at h
  next t n nm heqt heqn heqm =>
    dsimp at heqt heqn heqm
    subst heqt; subst heqn; subst heqm
    have hnm : nm.getLast? ≠ some '.' := of_decide_eq_true h
    simp [fuzzySegment, asJStr, boolSegment, boolSegCore, pyStr, stripOneDot, hnm]
  next => exact absurd h (by simp)

theorem mainPathString_of_wf (divs : List Division) (hwf : divs.all wfDiv = true) :
    mainPathString divs = some ((divs.map boolSegment).flatten) := by
  induction divs with
  | nil => rfl
  | cons d rest ih =>
    rw [List.all_cons, Bool.and_eq_true] at hwf
    show (do
      let s ← fuzzySegment d
      let p ← mainPathString rest
      pure (s ++ p)) = _
    rw [fuzzySegment_of_wf d hwf.1, ih hwf.2]
    simp

theorem flatten_boolSegments_split (divs : List Division) (hne : divs ≠ []) :
    ∃ y, (divs.map boolSegment).flatten = y ++ str " > " := by
  induction divs with
  | nil => exact absurd rfl hne
  | cons d rest ih =>
    cases rest with
    | nil => exact ⟨boolSegCore d, by simp [boolSegment]⟩
    | cons d2 rest2 =>
      obtain ⟨y, hy⟩ := ih (by simp)
      refine ⟨boolSegment d ++ y, ?_⟩
      rw [List.map_cons, List.flatten_cons, hy, List.append_assoc]

theorem pySliceDropLast3_append_sep (y : Str) : pySliceDropLast3 (y ++ str " > ") = y := by
  unfold pySliceDropLast3
  rw [List.length_append, show (str " > ").length = 3 from rfl, Nat.add_sub_cancel]
  exact List.take_left ..

/-- C2: the claim says the fuzzy path keeps no trailing separator while the
boolean path does.  On a single plainly-named division the code does the
opposite: main (fuzzy) yields a path ending in the separator, merge_tags
(boolean) strips it. -/
theorem c2_counterexample :
    mainPathString [⟨some (.str (str "Title")), some (.str (str "1")), some (.str (str "Chapter"))⟩]
      = some (str "Title 1 - Chapter > ") ∧
    mergeTagsPathString [⟨some (.str (str "Title")), some (.str (str "1")), some (.str (str "Chapter"))⟩]
      = str "Title 1 - Chapter" := by
  constructor
  · rfl
  · rfl

/-- C2 (amended): on a non-empty division sequence whose divisions are
well formed for both builders, the boolean pipeline (merge_tags) removes
the trailing separator with path[:-3] while the fuzzy pipeline (main)
keeps it: the fuzzy path equals the boolean path plus one separator. -/
theorem c2_trailing_separator (divs : List Division) (hne : divs ≠ [])
    (hwf : divs.all wfDiv = true) :
    mainPathString divs = some (mergeTagsPathString divs ++ str " > ") := by
  obtain ⟨y, hy⟩ := flatten_boolSegments_split divs hne
  rw [mainPathString_of_wf divs hwf, hy]
  unfold mergeTagsPathString
  rw [hy, pySliceDropLast3_append_sep]

theorem c2_witness :
    mainPathString [⟨some (.str (str "Title")), some (.str (str "9")), some (.str (str "Dogs"))⟩]
      = some (mergeTagsPathString [⟨some (.str (str "Title")), some (.str (str "9")), some (.str (str "Dogs"))⟩] ++ str " > ") :=
  c2_trailing_separator _ (by simp) (by decide)

/-- C3: the claim says a null or absent division name renders as the empty
string and the builders never fail.  A null name renders as the string
None in merge_tags, and makes main drop the unit via its exception
handler. -/
theorem c3_counterexample :
    mergeTagsPathString [⟨some (.str (str "Title")), some (.str (str "1")), some .null⟩]
      = str "Title 1 - None" ∧
    mainPathString [⟨some (.str (str "Title")), some (.str (str "1")), some .null⟩] = none := by
  constructor
  · rfl
  · rfl

/-- C3 (amended): the merge_tags builder is total; an absent name renders
exactly like an empty-string name, but a null name renders like the
literal string None; the main (fuzzy) builder fails on a division whose
name is null or absent, which drops the unit. -/
theorem c3_name_rendering (tv nv : Option Json) (d : Division)
    (h : d.name = none ∨ d.name = some Json.null) :
    boolSegment ⟨tv, nv, none⟩ = boolSegment ⟨tv, nv, some (Json.str [])⟩ ∧
    boolSegment ⟨tv, nv, some Json.null⟩ = boolSegment ⟨tv, nv, some (Json.str (str "None"))⟩ ∧
    fuzzySegment d = none := by
  refine ⟨rfl, rfl, ?_⟩
  rcases h with h | h <;> simp [fuzzySegment, h, asJStr]

theorem c3_witness :
    boolSegment ⟨some (Json.str (str "T")), some (Json.str (str "1")), none⟩
      = boolSegment ⟨some (Json.str (str "T")), some (Json.str (str "1")), some (Json.str [])⟩ ∧
    boolSegment ⟨some (Json.str (str "T")), some (Json.str (str "1")), some Json.null⟩
      = boolSegment ⟨some (Json.str (str "T")), some (Json.str (str "1")), some (Json.str (str "None"))⟩ ∧
    fuzzySegment ⟨some (Json.str (str "T")), some (Json.str (str "1")), some Json.null⟩ = none :=
  c3_name_rendering (some (Json.str (str "T"))) (some (Json.str (str "1")))
    ⟨some (Json.str (str "T")), some (Json.str (str "1")), some Json.null⟩ (Or.inr rfl)

/-- C4: the claim says every path-builder segment of a period-ending name
loses its trailing period.  merge_tags performs no stripping at all: on
the Title 45 division its whole path ends with the period. -/
theorem c4_counterexample :
    mergeTagsPathString [⟨some (.str (str "Title")), some (.str (str "45")), some (.str (str "Local Laws."))⟩]
      = str "Title 45 - Local Laws." ∧
    (str "Title 45 - Local Laws.").getLast? = some '.' := by
  constructor
  · rfl
  · rfl

/-- C4 (amended): only the main (fuzzy) builder strips a trailing period,
and it strips exactly one: a name ending in exactly one period yields a
fuzzy segment core with no trailing period, while the merge_tags segment
core keeps the period. -/
theorem c4_period_stripping (t n : Json) (nm : Str)
    (h1 : nm.getLast? = some '.') (h2 : nm.dropLast.getLast? ≠ some '.') :
    (∃ core, fuzzySegment ⟨some t, some n, some (.str nm)⟩ = some (core ++ str " > ") ∧
      core.getLast? ≠ some '.') ∧
    (boolSegCore ⟨some t, some n, some (.str nm)⟩).getLast? = some '.' := by
  have hnm_ne : nm ≠ [] := by
    intro hh
    rw [hh] at h1
    simp at h1
  constructor
  · refine ⟨pyStr t ++ str " " ++ pyStr n ++ str " - " ++ stripOneDot nm, ?_, ?_⟩
    · simp [fuzzySegment, asJStr]
    · rw [stripOneDot, if_pos h1]
      by_cases hd : nm.dropLast = []
      · rw [hd, List.append_nil]
        rw [getLast?_append_right _ (str " - ") (by decide)]
        decide
      · rw [getLast?_append_right _ _ hd]
        exact h2
  · show (pyStr t ++ str " " ++ pyStr n ++ str " - " ++ pyStr ((some (Json.str nm)).getD (.str []))).getLast? = some '.'
    show (pyStr t ++ str " " ++ pyStr n ++ str " - " ++ nm).getLast? = some '.'
    rw [getLast?_append_right _ _ hnm_ne]
    exact h1

theorem c4_witness :
    (∃ core, fuzzySegment ⟨some (Json.str (str "Title")), some (Json.str (str "45")), some (.str (str "Local Laws."))⟩
        = some (core ++ str " > ") ∧ core.getLast? ≠ some '.') ∧
    (boolSegCore ⟨some (Json.str (str "Title")), some (Json.str (str "45")), some (.str (str "Local Laws."))⟩).getLast?
      = some '.' :=
  c4_period_stripping (Json.str (str "Title")) (Json.str (str "45")) (str "Local Laws.")
    (by decide) (by decide)

theorem processUnit_unique_id (vocab : List Str) (v : Json) (m : Mcu) (r : Record)
    (h : processUnit vocab v m = some r) : r.unique_id = m.unique_id := by
  unfold processUnit at h
  cases hs : asJStr v with
  | none => rw [hs] at h; simp at h
  | some s =>
    rw [hs] at h
    simp only [Option.bind_eq_bind, Option.some_bind] at h
    cases hj : jsonParse (repairEffect s) with
    | none => rw [hj] at h; simp at h
    | some j =>
      rw [hj] at h
      simp only [Option.some_bind] at h
      cases hp : mainPathString m.path with
      | none => rw [hp] at h; simp at h
      | some p =>
        rw [hp] at h
        simp only [Option.some_bind] at h
        cases hf : filterEffects vocab j with
        | none => rw [hf] at h; simp at h
        | some tags =>
          rw [hf] at h
          simp only [Option.some_bind, Option.pure_def, Option.some.injEq] at h
          rw [← h]

/-- C1: no Title-45-Local-Laws exclusion exists in the assembler.  A unit
whose whole path is the division Title 45 Local Laws. and whose effect
string decodes is assembled into the output. -/
theorem c1_counterexample :
    (mainLoop [] [(str "u45", Json.str (str "[]"))]
        [⟨str "u45", str "S1", str "Alabama", 2023, str "text",
          [⟨some (.str (str "Title")), some (.str (str "45")), some (.str (str "Local Laws."))⟩]⟩]).toOption.map
      (fun p => p.1.map (fun r => r.unique_id)) = some [str "u45"] := by
  rfl

/-- C1 (amended): the record assembler applies no exclusion policy at all:
when the run completes, the output records are exactly the units whose
annotation lookup and per-unit processing succeed, in input order and
independently of their division paths, and every such unit (in particular
one located under Title 45 Local Laws.) contributes its id. -/
theorem c1_no_exclusion_assembly (vocab : List Str) (tagDict : List (Str × Json))
    (mcus : List Mcu) (recs : List Record) (nerr : Nat)
    (h : mainLoop vocab tagDict mcus = .ok (recs, nerr)) :
    recs.map (fun r => r.unique_id)
      = (mcus.filter (unitOk vocab tagDict)).map (fun m => m.unique_id) ∧
    ∀ m ∈ mcus, unitOk vocab tagDict m = true →
      m.unique_id ∈ recs.map (fun r => r.unique_id) := by
  have main : recs.map (fun r => r.unique_id)
      = (mcus.filter (unitOk vocab tagDict)).map (fun m => m.unique_id) := by
    induction mcus generalizing recs nerr with
    | nil =>
      rw [mainLoop] at h
      injection h with h1
      injection h1 with h2 h3
      rw [← h2]
      rfl
    | cons m rest ih =>
      rw [mainLoop] at h
      cases hlk : lookupL tagDict m.unique_id with
      | none => rw [hlk] at h; exact absurd h (by simp)
      | some v =>
        rw [hlk] at h
        dsimp only at h
        cases hpu : processUnit vocab v m with
        | some r =>
          rw [hpu] at h
          dsimp only at h
          cases hml : mainLoop vocab tagDict rest with
          | error e => rw [hml] at h; exact absurd h (by simp)
          | ok p =>
            rw [hml] at h
            dsimp only at h
            injection h with h1
            injection h1 with h2 h3
            have hok : unitOk vocab tagDict m = true := by
              simp [unitOk, hlk, hpu]
            rw [← h2, List.filter_cons, hok]
            simp only [List.map_cons]
            rw [processUnit_unique_id vocab v m r hpu, ih p.1 p.2 (by rw [hml])]
            simp
        | none =>
          rw [hpu] at h
          dsimp only at h
          cases hml : mainLoop vocab tagDict rest with
          | error e => rw [hml] at h; exact absurd h (by simp)
          | ok p =>
            rw [hml] at h
            dsimp only at h
            injection h with h1
            injection h1 with h2 h3
            have hok : unitOk vocab tagDict m = false := by
              simp [unitOk, hlk, hpu]
            rw [← h2, List.filter_cons, hok]
            simp only [Bool.false_eq_true, if_false]
            exact ih p.1 p.2 (by rw [hml])
  refine ⟨main, ?_⟩
  intro m hm hok
  rw [main]
  exact List.mem_map_of_mem _ (List.mem_filter.mpr ⟨hm, hok⟩)

theorem c1_witness :
    ([⟨str "u45", str "Title 45 - Local Laws >  > S1", str "Title 45 - Local Laws > ",
        str "Alabama", 2023, str "text", []⟩] : List Record).map (fun r => r.unique_id)
      = (([⟨str "u45", str "S1", str "Alabama", 2023, str "text",
          [⟨some (.str (str "Title")), some (.str (str "45")), some (.str (str "Local Laws."))⟩]⟩] : List Mcu).filter
          (unitOk [] [(str "u45", Json.str (str "[]"))])).map (fun m => m.unique_id) ∧
    ∀ m ∈ ([⟨str "u45", str "S1", str "Alabama", 2023, str "text",
        [⟨some (.str (str "Title")), some (.str (str "45")), some (.str (str "Local Laws."))⟩]⟩] : List Mcu),
      unitOk [] [(str "u45", Json.str (str "[]"))] m = true →
      m.unique_id ∈ ([⟨str "u45", str "Title 45 - Local Laws >  > S1", str "Title 45 - Local Laws > ",
        str "Alabama", 2023, str "text", []⟩] : List Record).map (fun r => r.unique_id) :=
  c1_no_exclusion_assembly [] [(str "u45", Json.str (str "[]"))]
    [⟨str "u45", str "S1", str "Alabama", 2023, str "text",
      [⟨some (.str (str "Title")), some (.str (str "45")), some (.str (str "Local Laws."))⟩]⟩]
    [⟨str "u45", str "Title 45 - Local Laws >  > S1", str "Title 45 - Local Laws > ",
      str "Alabama", 2023, str "text", []⟩] 0 (by rfl)

theorem jsonParse_nil : jsonParse [] = none := rfl

theorem no_rbracket_repair_fails (s : Str) (h : ']' ∉ s) :
    jsonParse (repairEffect s) = none := by
  have h1 : ']' ∉ replaceAll (str "```json") [] s := mem_replaceAll_empty_repl _ _ _ h
  have h2 : ']' ∉ replaceAll (str "```") [] (replaceAll (str "```json") [] s) :=
    mem_replaceAll_empty_repl _ _ _ h1
  have h3 : ']' ∉ pyStrip (replaceAll (str "```") [] (replaceAll (str "```json") [] s)) :=
    mem_pyStrip _ _ h2
  unfold repairEffect
  rw [truncLastBr_nil_of_nmem _ h3]
  exact jsonParse_nil

/-- C5: a unit whose effect string has no closing bracket, or fails to
decode after the repair steps, is dropped, the error counter grows by
exactly one, and the loop continues over the remaining units. -/
theorem c5_decode_failure_skips (vocab : List Str) (tagDict : List (Str × Json))
    (m : Mcu) (rest : List Mcu) (s : Str)
    (hlk : lookupL tagDict m.unique_id = some (Json.str s))
    (hbad : ']' ∉ s ∨ jsonParse (repairEffect s) = none) :
    mainLoop vocab tagDict (m :: rest)
      = (mainLoop vocab tagDict rest).map (fun p => (p.1, p.2 + 1)) := by
  have hfail : jsonParse (repairEffect s) = none := by
    rcases hbad with hb | hb
    · exact no_rbracket_repair_fails s hb
    · exact hb
  have hpu : processUnit vocab (Json.str s) m = none := by
    unfold processUnit
    simp [asJStr, hfail]
  rw [mainLoop, hlk]
  dsimp only
  rw [hpu]
  cases hml : mainLoop vocab tagDict rest with
  | error e => rfl
  | ok p => rfl

theorem c5_witness :
    mainLoop [] [(str "u1", Json.str (str "oops"))]
        [⟨str "u1", str "S1", str "Alabama", 2023, str "t", []⟩]
      = (mainLoop [] [(str "u1", Json.str (str "oops"))] []).map (fun p => (p.1, p.2 + 1)) :=
  c5_decode_failure_skips [] [(str "u1", Json.str (str "oops"))]
    ⟨str "u1", str "S1", str "Alabama", 2023, str "t", []⟩ [] (str "oops")
    (by rfl) (Or.inl (by decide))

/-- C10: the annotation-dictionary lookup happens before the per-unit try
block, so a unit whose unique id is absent from the mapping aborts the
whole run with its id, producing no records and no error count; in
general any unit with a missing id somewhere in the input makes the run
end in an abort. -/
theorem c10_missing_id_aborts (vocab : List Str) (tagDict : List (Str × Json)) :
    (∀ (m : Mcu) (rest : List Mcu), lookupL tagDict m.unique_id = none →
      mainLoop vocab tagDict (m :: rest) = .error m.unique_id) ∧
    (∀ mcus : List Mcu, (∃ m ∈ mcus, lookupL tagDict m.unique_id = none) →
      ∃ u, mainLoop vocab tagDict mcus = .error u) := by
  constructor
  · intro m rest hlk
    rw [mainLoop, hlk]
  · intro mcus hex
    induction mcus with
    | nil => simp at hex
    | cons m rest ih =>
      cases hlk : lookupL tagDict m.unique_id with
      | none => exact ⟨m.unique_id, by rw [mainLoop, hlk]⟩
      | some v =>
        have hrest : ∃ m2 ∈ rest, lookupL tagDict m2.unique_id = none := by
          rcases hex with ⟨m2, hm2, hl2⟩
          rcases List.mem_cons.mp hm2 with he | ht
          · rw [he] at hl2; rw [hl2] at hlk; exact absurd hlk (by simp)
          · exact ⟨m2, ht, hl2⟩
        obtain ⟨u, hu⟩ := ih hrest
        cases hpu : processUnit vocab v m with
        | some r => exact ⟨u, by rw [mainLoop, hlk]; dsimp only; rw [hpu, hu]⟩
        | none => exact ⟨u, by rw [mainLoop, hlk]; dsimp only; rw [hpu, hu]⟩

theorem c10_witness :
    mainLoop [] [] [⟨str "u1", str "S1", str "Alabama", 2023, str "t", []⟩]
      = .error (str "u1") ∧
    ∃ u, mainLoop [] [] [⟨str "u1", str "S1", str "Alabama", 2023, str "t", []⟩] = .error u :=
  ⟨(c10_missing_id_aborts [] []).1 ⟨str "u1", str "S1", str "Alabama", 2023, str "t", []⟩ [] rfl,
   (c10_missing_id_aborts [] []).2 [⟨str "u1", str "S1", str "Alabama", 2023, str "t", []⟩]
     ⟨⟨str "u1", str "S1", str "Alabama", 2023, str "t", []⟩, by simp, rfl⟩⟩

theorem bestScore_ge (score : Str → Str → Nat) (generated : Str) (l : List Str) :
    ∀ x ∈ l, score generated x ≤ bestScore score generated l := by
  induction l with
  | nil => intro x hx; simp at hx
  | cons e rest ih =>
    intro x hx
    rcases List.mem_cons.mp hx with he | ht
    · rw [he, bestScore]; exact Nat.le_max_left _ _
    · rw [bestScore]; exact Nat.le_trans (ih x ht) (Nat.le_max_right _ _)

theorem bestScore_lt_of_all_lt (score : Str → Str → Nat) (generated : Str) (l : List Str)
    (M : Nat) (hM : 0 < M) (h : ∀ x ∈ l, score generated x < M) :
    bestScore score generated l < M := by
  induction l with
  | nil => exact hM
  | cons e rest ih =>
    rw [bestScore]
    exact Nat.max_lt.mpr ⟨h e (List.mem_cons_self e rest),
      ih (fun x hx => h x (List.mem_cons_of_mem e hx))⟩

theorem mapLoop_append (score : Str → Str → Nat) (generated : Str) (p q : List Str)
    (b : Option Str) (bs : Nat) :
    mapLoop score generated (p ++ q) b bs
      = mapLoop score generated q (mapLoop score generated p b bs).1
          (mapLoop score generated p b bs).2 := by
  induction p generalizing b bs with
  | nil => rfl
  | cons e p' ih =>
    rw [List.cons_append, mapLoop, mapLoop]
    by_cases hc : bs < score generated e
    · rw [if_pos hc, if_pos hc, ih]
    · rw [if_neg hc, if_neg hc, ih]

theorem mapLoop_snd (score : Str → Str → Nat) (generated : Str) (l : List Str)
    (b : Option Str) (bs : Nat) :
    (mapLoop score generated l b bs).2 = max bs (bestScore score generated l) := by
  induction l generalizing b bs with
  | nil => simp [mapLoop, bestScore]
  | cons e rest ih =>
    rw [mapLoop, bestScore]
    by_cases hc : bs < score generated e
    · rw [if_pos hc, ih]
      omega
    · rw [if_neg hc, ih]
      omega

theorem mapLoop_all_le (score : Str → Str → Nat) (generated : Str) (l : List Str)
    (b : Option Str) (bs : Nat) (h : ∀ x ∈ l, score generated x ≤ bs) :
    mapLoop score generated l b bs = (b, bs) := by
  induction l with
  | nil => rfl
  | cons e rest ih =>
    rw [mapLoop, if_neg (by exact Nat.not_lt.mpr (h e (List.mem_cons_self e rest)))]
    exact ih (fun x hx => h x (List.mem_cons_of_mem e hx))

theorem first_best_decomposition (score : Str → Str → Nat) (generated : Str) :
    ∀ l : List Str, l ≠ [] →
      ∃ pre r suf, l = pre ++ r :: suf ∧
        score generated r = bestScore score generated l ∧
        (∀ x ∈ pre, score generated x < bestScore score generated l) ∧
        (∀ x ∈ suf, score generated x ≤ bestScore score generated l) := by
  intro l
  induction l with
  | nil => intro h; exact absurd rfl h
  | cons e rest ih =>
    intro _
    by_cases hc : bestScore score generated rest ≤ score generated e
    · refine ⟨[], e, rest, by simp, ?_, by simp, ?_⟩
      · rw [bestScore]; omega
      · intro x hx
        rw [bestScore]
        exact Nat.le_trans (bestScore_ge score generated rest x hx) (Nat.le_max_right _ _)
    · have hrest_ne : rest ≠ [] := by
        intro hr
        rw [hr, bestScore] at hc
        omega
      obtain ⟨pre, r, suf, hsplit, hr, hpre, hsuf⟩ := ih hrest_ne
      have hM : bestScore score generated (e :: rest) = bestScore score generated rest := by
        rw [bestScore]; omega
      refine ⟨e :: pre, r, suf, by rw [hsplit]; rfl, by rw [hM]; exact hr, ?_, ?_⟩
      · intro x hx
        rw [hM]
        rcases List.mem_cons.mp hx with he | ht
        · rw [he]; omega
        · exact hpre x ht
      · intro x hx
        rw [hM]
        exact hsuf x hx

/-- C7: the claim says map_to_effect always returns the highest-scoring
vocabulary term.  The loop only replaces the best match on a strictly
positive improvement over the initial score 0, so when every term scores
0 it returns None instead of the first term: the constant-zero scorer is
realized by fuzz.partial_ratio, which yields 0 for disjoint strings such
as partial_ratio of a against b. -/
theorem c7_counterexample :
    map_to_effect (fun _ _ => 0) (str "a") [str "b"] = none := rfl

/-- C7 (amended): whenever some vocabulary term scores strictly above 0,
map_to_effect returns the term with the single highest score, ties
resolved in favor of the term encountered first; when every term scores
0, it returns no match. -/
theorem c7_best_match (score : Str → Str → Nat) (generated : Str) (vocab : List Str)
    (hpos : ∃ e ∈ vocab, 0 < score generated e) :
    ∃ r pre suf, map_to_effect score generated vocab = some r ∧
      vocab = pre ++ r :: suf ∧
      (∀ x ∈ vocab, score generated x ≤ score generated r) ∧
      (∀ x ∈ pre, score generated x < score generated r) ∧
      (∀ x ∈ suf, score generated x ≤ score generated r) := by
  obtain ⟨e0, he0, hs0⟩ := hpos
  have hne : vocab ≠ [] := fun h => by rw [h] at he0; simp at he0
  obtain ⟨pre, r, suf, hsplit, hr, hpre, hsuf⟩ :=
    first_best_decomposition score generated vocab hne
  have hMpos : 0 < bestScore score generated vocab :=
    Nat.lt_of_lt_of_le hs0 (bestScore_ge score generated vocab e0 he0)
  refine ⟨r, pre, suf, ?_, hsplit, ?_, ?_, ?_⟩
  · unfold map_to_effect
    rw [hsplit, mapLoop_append]
    have hsnd : (mapLoop score generated pre none 0).2 < score generated r := by
      rw [mapLoop_snd, hr]
      have : bestScore score generated pre < bestScore score generated vocab :=
        bestScore_lt_of_all_lt score generated pre _ hMpos hpre
      omega
    rw [mapLoop]
    rw [if_pos hsnd]
    rw [mapLoop_all_le score generated suf (some r) (score generated r)
      (fun x hx => by rw [hr]; exact hsuf x hx)]
  · intro x hx
    rw [hr]
    exact bestScore_ge score generated vocab x hx
  · intro x hx
    rw [hr]
    exact hpre x hx
  · intro x hx
    rw [hr]
    exact hsuf x hx

theorem c7_witness :
    ∃ r pre suf, map_to_effect (fun _ e => e.length) (str "a") [str "bb", str "ccc", str "ddd"] = some r ∧
      [str "bb", str "ccc", str "ddd"] = pre ++ r :: suf ∧
      (∀ x ∈ [str "bb", str "ccc", str "ddd"],
        (fun (_ e : Str) => e.length) (str "a") x ≤ (fun (_ e : Str) => e.length) (str "a") r) ∧
      (∀ x ∈ pre, (fun (_ e : Str) => e.length) (str "a") x < (fun (_ e : Str) => e.length) (str "a") r) ∧
      (∀ x ∈ suf, (fun (_ e : Str) => e.length) (str "a") x ≤ (fun (_ e : Str) => e.length) (str "a") r) :=
  c7_best_match (fun _ e => e.length) (str "a") [str "bb", str "ccc", str "ddd"]
    ⟨str "bb", by simp, by decide⟩

/-- C8: the validator exits 0 exactly when the input decodes to a list and
every entry is validated to completion with zero issues; in every other
situation (read failure, parse failure, non-list top level, a validation
run finding issues, or an entry whose checking raises) it exits 1. -/
theorem c8_exit_status (input : Option Json) :
    (checkDataExit input = 0 ↔ zeroIssuesFound input) ∧
    (¬ zeroIssuesFound input → checkDataExit input = 1) := by
  have hz : checkDataExit input = 0 ↔ zeroIssuesFound input := by
    cases input with
    | none => simp [checkDataExit, zeroIssuesFound]
    | some j =>
      cases j with
      | arr entries =>
        cases hrv : runValidate entries with
        | error e =>
          simp only [checkDataExit, hrv, zeroIssuesFound, Option.some.injEq, Json.arr.injEq]
          constructor
          · intro h; exact absurd h (by simp)
          · rintro ⟨es, hes, hok⟩
            rw [← hes] at hok
            rw [hok] at hrv
            exact absurd hrv (by simp)
        | ok n =>
          simp only [checkDataExit, hrv, zeroIssuesFound, Option.some.injEq, Json.arr.injEq]
          constructor
          · intro h
            have hn : n = 0 := by by_contra hc; rw [if_neg hc] at h; exact absurd h (by simp)
            exact ⟨entries, rfl, by rw [hrv, hn]⟩
          · rintro ⟨es, hes, hok⟩
            rw [← hes] at hok
            rw [hok] at hrv
            injection hrv with hn
            rw [if_pos hn.symm]
      | null => simp [checkDataExit, zeroIssuesFound]
      | bool b => simp [checkDataExit, zeroIssuesFound]
      | num lit => simp [checkDataExit, zeroIssuesFound]
      | str s => simp [checkDataExit, zeroIssuesFound]
      | obj kvs => simp [checkDataExit, zeroIssuesFound]
  have h01 : checkDataExit input = 0 ∨ checkDataExit input = 1 := by
    cases input with
    | none => exact Or.inr rfl
    | some j =>
      cases j with
      | arr entries =>
        cases hrv : runValidate entries with
        | error e => exact Or.inr (by simp [checkDataExit, hrv])
        | ok n =>
          by_cases hn : n = 0
          · exact Or.inl (by simp [checkDataExit, hrv, hn])
          · exact Or.inr (by simp [checkDataExit, hrv, hn])
      | null => exact Or.inr rfl
      | bool b => exact Or.inr rfl
      | num lit => exact Or.inr rfl
      | str s => exact Or.inr rfl
      | obj kvs => exact Or.inr rfl
  refine ⟨hz, fun hnz => ?_⟩
  rcases h01 with h0 | h1
  · exact absurd (hz.mp h0) hnz
  · exact h1

theorem c8_witness : checkDataExit (some Json.null) = 1 :=
  (c8_exit_status (some Json.null)).2 (by rintro ⟨es, hes, _⟩; simp at hes)

theorem mem_sdAppend {β : Type} (tm : List (Str × List β)) (k : Str) (v : β) (k' : Str)
    (vs : List β) (h : lookupL (sdAppend tm k v) k' = some vs) :
    ∀ x ∈ vs, (∃ vs', lookupL tm k' = some vs' ∧ x ∈ vs') ∨ x = v := by
  induction tm generalizing vs with
  | nil =>
    intro x hx
    rw [sdAppend, lookupL] at h
    by_cases hk : k = k'
    · rw [if_pos hk] at h
      injection h with h1
      rw [← h1] at hx
      simp at hx
      exact Or.inr hx
    · rw [if_neg hk, lookupL] at h
      exact absurd h (by simp)
  | cons kv rest ih =>
    obtain ⟨k0, vs0⟩ := kv
    intro x hx
    rw [sdAppend] at h
    by_cases hk0 : k0 = k
    · rw [if_pos hk0, lookupL] at h
      by_cases hk' : k0 = k'
      · rw [if_pos hk'] at h
        injection h with h1
        rw [← h1] at hx
        rcases List.mem_append.mp hx with hm | hm
        · exact Or.inl ⟨vs0, by rw [lookupL, if_pos hk'], hm⟩
        · simp at hm
          exact Or.inr hm
      · rw [if_neg hk'] at h
        exact Or.inl (by rw [lookupL, if_neg hk']; exact ⟨vs, h, hx⟩)
    · rw [if_neg hk0, lookupL] at h
      by_cases hk' : k0 = k'
      · rw [if_pos hk'] at h
        injection h with h1
        exact Or.inl ⟨vs0, by rw [lookupL, if_pos hk'], h1 ▸ hx⟩
      · rw [if_neg hk'] at h
        rcases ih vs h x hx with hl | hr
        · obtain ⟨vs', hvs', hxm⟩ := hl
          exact Or.inl ⟨vs', by rw [lookupL, if_neg hk']; exact hvs', hxm⟩
        · exact Or.inr hr
  
theorem lookupL_setKey_isSome {β : Type} (im : List (Str × β)) (k : Str) (v : β) (k' : Str)
    (h : (lookupL im k').isSome = true ∨ k' = k) :
    (lookupL (setKey im k v) k').isSome = true := by
  induction im with
  | nil =>
    rcases h with h0 | h1
    · rw [lookupL] at h0; simp at h0
    · rw [setKey, lookupL, if_pos h1.symm]; rfl
  | cons kv rest ih =>
    obtain ⟨k0, v0⟩ := kv
    rw [setKey]
    by_cases hk0 : k0 = k
    · rw [if_pos hk0, lookupL]
      by_cases hk' : k0 = k'
      · rw [if_pos hk']; rfl
      · rw [if_neg hk']
        rcases h with h0 | h1
        · rw [lookupL, if_neg hk'] at h0
          exact h0
        · exact absurd (hk0.trans h1.symm) hk'
    · rw [if_neg hk0, lookupL]
      by_cases hk' : k0 = k'
      · rw [if_pos hk']; rfl
      · rw [if_neg hk']
        apply ih
        rcases h with h0 | h1
        · rw [lookupL, if_neg hk'] at h0
          exact Or.inl h0
        · exact Or.inr h1

theorem mem_foldl_sdAppend (uid : Str) :
    ∀ (tags : List Str) (tm : List (Str × List Str)) (k : Str) (vs : List Str),
      lookupL (tags.foldl (fun acc tag => sdAppend acc tag uid) tm) k = some vs →
      ∀ x ∈ vs, (∃ vs', lookupL tm k = some vs' ∧ x ∈ vs') ∨ x = uid := by
  intro tags
  induction tags with
  | nil =>
    intro tm k vs h x hx
    exact Or.inl ⟨vs, h, hx⟩
  | cons tag tags' ih =>
    intro tm k vs h x hx
    rw [List.foldl_cons] at h
    rcases ih (sdAppend tm tag uid) k vs h x hx with hl | hr
    · obtain ⟨vs', hvs', hxm⟩ := hl
      rcases mem_sdAppend tm tag uid k vs' hvs' x hxm with hl2 | hr2
      · exact Or.inl hl2
      · exact Or.inr hr2
    · exact Or.inr hr

theorem loadRowsA_inv (rows : List RowA) :
    ∀ (i : Nat) (tm : List (Str × List Str)) (im : List (Str × Nat)),
      (∀ k vs, lookupL tm k = some vs → ∀ id ∈ vs, (lookupL im id).isSome = true) →
      ∀ k vs, lookupL (loadRowsA rows i tm im).1 k = some vs →
        ∀ id ∈ vs, (lookupL (loadRowsA rows i tm im).2 id).isSome = true := by
  induction rows with
  | nil => intro i tm im hinv k vs h id hid; exact hinv k vs h id hid
  | cons r rest ih =>
    intro i tm im hinv k vs h id hid
    rw [loadRowsA] at h ⊢
    refine ih (i + 1) _ _ ?_ k vs h id hid
    intro k2 vs2 h2 id2 hid2
    rcases mem_foldl_sdAppend r.unique_id r.tag_list tm k2 vs2 h2 id2 hid2 with hl | hr
    · obtain ⟨vs', hvs', hm⟩ := hl
      exact lookupL_setKey_isSome im r.unique_id i id2 (Or.inl (hinv k2 vs' hvs' id2 hm))
    · exact lookupL_setKey_isSome im r.unique_id i id2 (Or.inr hr)

theorem loadRowB_inv (uid : Str) (i : Nat) :
    ∀ (effects : List EffectRow) (em : List (Str × List (Str × Str))) (im : List (Str × Nat)),
      (∀ k ps, lookupL em k = some ps → ∀ p ∈ ps, (lookupL im p.1).isSome = true) →
      ∀ k ps, lookupL (loadRowB uid i effects em im).1 k = some ps →
        ∀ p ∈ ps, (lookupL (loadRowB uid i effects em im).2 p.1).isSome = true := by
  intro effects
  induction effects with
  | nil => intro em im hinv k ps h p hp; exact hinv k ps h p hp
  | cons ef rest ih =>
    intro em im hinv k ps h p hp
    rw [loadRowB] at h ⊢
    refine ih _ _ ?_ k ps h p hp
    intro k2 ps2 h2 p2 hp2
    rcases mem_sdAppend em ef.effect (uid, ef.explanation) k2 ps2 h2 p2 hp2 with hl | hr
    · obtain ⟨ps', hps', hm⟩ := hl
      exact lookupL_setKey_isSome im uid i p2.1 (Or.inl (hinv k2 ps' hps' p2 hm))
    · exact lookupL_setKey_isSome im uid i p2.1 (Or.inr (by rw [hr]))

theorem loadRowsB_inv (rows : List RowB) :
    ∀ (i : Nat) (em : List (Str × List (Str × Str))) (im : List (Str × Nat)),
      (∀ k ps, lookupL em k = some ps → ∀ p ∈ ps, (lookupL im p.1).isSome = true) →
      ∀ k ps, lookupL (loadRowsB rows i em im).1 k = some ps →
        ∀ p ∈ ps, (lookupL (loadRowsB rows i em im).2 p.1).isSome = true := by
  induction rows with
  | nil => intro i em im hinv k ps h p hp; exact hinv k ps h p hp
  | cons r rest ih =>
    intro i em im hinv k ps h p hp
    rw [loadRowsB] at h ⊢
    exact ih (i + 1) _ _ (loadRowB_inv r.unique_id i r.legal_effects em im hinv) k ps h p hp

/-- C9: in both app variants, every unique id stored in a value list of the
tag-to-ids (respectively effect-to-ids) index built by load_data resolves
to a row index in id-to-idx. -/
theorem c9_index_invariant (rowsA : List RowA) (rowsB : List RowB) :
    (∀ tag ids, lookupL (load_dataA rowsA).1 tag = some ids →
      ∀ id ∈ ids, (lookupL (load_dataA rowsA).2 id).isSome = true) ∧
    (∀ eff ps, lookupL (load_dataB rowsB).1 eff = some ps →
      ∀ p ∈ ps, (lookupL (load_dataB rowsB).2 p.1).isSome = true) := by
  constructor
  · intro tag ids h id hid
    refine loadRowsA_inv rowsA 0 [] [] ?_ tag ids h id hid
    intro k vs hk
    rw [lookupL] at hk
    exact absurd hk (by simp)
  · intro eff ps h p hp
    refine loadRowsB_inv rowsB 0 [] [] ?_ eff ps h p hp
    intro k vs hk
    rw [lookupL] at hk
    exact absurd hk (by simp)

theorem c9_witness :
    (∀ id ∈ [str "a1"], (lookupL (load_dataA [⟨str "a1", [str "t"]⟩]).2 id).isSome = true) ∧
    (∀ p ∈ [(str "b1", str "x")],
      (lookupL (load_dataB [⟨str "b1", [⟨str "e", str "x"⟩]⟩]).2 p.1).isSome = true) :=
  ⟨(c9_index_invariant [⟨str "a1", [str "t"]⟩] [⟨str "b1", [⟨str "e", str "x"⟩]⟩]).1
      (str "t") [str "a1"] (by rfl),
   (c9_index_invariant [⟨str "a1", [str "t"]⟩] [⟨str "b1", [⟨str "e", str "x"⟩]⟩]).2
      (str "e") [(str "b1", str "x")] (by rfl)⟩

theorem plainChar_spec (c : Char) (h : plainChar c = true) :
    c ≠ '"' ∧ c ≠ '\\' ∧ c ≠ btChar ∧ 32 ≤ c.toNat := by
  unfold plainChar at h
  simp only [Bool.and_eq_true, Bool.not_eq_eq_eq_not, Bool.not_true, beq_eq_false_iff_ne,
    decide_eq_true_eq] at h
  exact ⟨h.1.1.1, h.1.1.2, h.1.2, h.2⟩

theorem parseStrBody_plain (s : Str) (h : plainStr s = true) (rest : Str) :
    parseStrBody (s ++ '"' :: rest) = some (s, rest) := by
  induction s with
  | nil =>
    simp only [List.nil_append]
    rw [parseStrBody.eq_def]
    dsimp only
    rw [if_pos rfl]
  | cons c s' ih =>
    rw [plainStr, List.all_cons, Bool.and_eq_true] at h
    obtain ⟨h1, h2, h3, h4⟩ := plainChar_spec c h.1
    rw [List.cons_append, parseStrBody.eq_def]
    dsimp only
    rw [if_neg h1, if_neg h2, if_neg (by omega : ¬ c.toNat < 32)]
    rw [ih h.2]
    rfl

theorem skipJWs_cons_neg (c : Char) (l : Str) (h : jWs c = false) : skipJWs (c :: l) = c :: l := by
  simp [skipJWs, List.dropWhile_cons, h]

theorem serStr_cons (s : Str) (rest : Str) : serStr s ++ rest = '"' :: (s ++ '"' :: rest) := by
  simp [serStr]

theorem parseValue_serStr (s : Str) (h : plainStr s = true) (rest : Str) (fuel : Nat)
    (hf : 1 ≤ fuel) : parseValue fuel (serStr s ++ rest) = some (.str s, rest) := by
  cases fuel with
  | zero => omega
  | succ f =>
    rw [serStr_cons, parseValue, skipJWs_cons_neg _ _ (by decide)]
    dsimp only
    rw [if_pos rfl, parseStrBody_plain s h rest]
    rfl

theorem parseItems_serStrs (ss : List Str) :
    ∀ (acc : List Json) (rest : Str) (fuel : Nat), ss ≠ [] →
      (∀ s ∈ ss, plainStr s = true) → ss.length + 1 ≤ fuel →
      parseItems fuel (joinWith [','] (ss.map serStr) ++ ']' :: rest) acc
        = some (.arr (acc ++ ss.map Json.str), rest) := by
  induction ss with
  | nil => intro _ _ _ hne; exact absurd rfl hne
  | cons s ss' ih =>
    intro acc rest fuel _ hpl hfuel
    simp only [List.length_cons] at hfuel
    cases fuel with
    | zero => omega
    | succ f =>
      cases ss' with
      | nil =>
        show parseItems (f + 1) (serStr s ++ ']' :: rest) acc = _
        rw [parseItems]
        rw [parseValue_serStr s (hpl s (by simp)) (']' :: rest) f (by omega)]
        rw [Option.bind_eq_bind, Option.some_bind, skipJWs_cons_neg _ _ (by decide)]
        rfl
      | cons s2 ss'' =>
        have hn : joinWith [','] ((s :: s2 :: ss'').map serStr) ++ ']' :: rest
            = serStr s ++ ',' :: (joinWith [','] ((s2 :: ss'').map serStr) ++ ']' :: rest) := by
          show (serStr s ++ [','] ++ joinWith [','] ((s2 :: ss'').map serStr)) ++ ']' :: rest = _
          simp
        rw [hn, parseItems]
        rw [parseValue_serStr s (hpl s (by simp)) _ f (by simp only [List.length_cons] at hfuel; omega)]
        rw [Option.bind_eq_bind, Option.some_bind, skipJWs_cons_neg _ _ (by decide)]
        show parseItems f (joinWith [','] ((s2 :: ss'').map serStr) ++ ']' :: rest) (acc ++ [Json.str s]) = _
        rw [ih (acc ++ [Json.str s]) rest f (by simp)
          (fun x hx => hpl x (List.mem_cons_of_mem s hx))
          (by simp only [List.length_cons] at hfuel ⊢; omega)]
        simp

theorem serSecs_cons_form (ss : List Str) (rest : Str) :
    serSecs ss ++ rest = '[' :: (joinWith [','] (ss.map serStr) ++ ']' :: rest) := by
  simp [serSecs]

theorem parseValue_serSecs (ss : List Str) (h : ∀ s ∈ ss, plainStr s = true) (rest : Str)
    (fuel : Nat) (hf : ss.length + 2 ≤ fuel) :
    parseValue fuel (serSecs ss ++ rest) = some (.arr (ss.map Json.str), rest) := by
  cases fuel with
  | zero => omega
  | succ f =>
    rw [serSecs_cons_form, parseValue, skipJWs_cons_neg _ _ (by decide)]
    dsimp only
    rw [if_neg (by decide : ¬ ('[' : Char) = '"'), if_pos rfl]
    cases ss with
    | nil =>
      show (match skipJWs (']' :: rest) with
        | ']' :: rest2 => some (Json.arr [], rest2)
        | l2 => parseItems f l2 []) = _
      rw [skipJWs_cons_neg _ _ (by decide)]
      rfl
    | cons s ss' =>
      have hhead : ∃ tl, joinWith [','] ((s :: ss').map serStr) ++ ']' :: rest = '"' :: tl := by
        cases ss' with
        | nil => exact ⟨s ++ '"' :: ']' :: rest, by simp [joinWith, serStr]⟩
        | cons s2 ss'' =>
          refine ⟨(s ++ '"' :: (',' :: (joinWith [','] ((s2 :: ss'').map serStr) ++ ']' :: rest))), ?_⟩
          show (serStr s ++ [','] ++ joinWith [','] ((s2 :: ss'').map serStr)) ++ ']' :: rest = _
          simp [serStr]
      obtain ⟨tl, htl⟩ := hhead
      rw [htl, skipJWs_cons_neg _ _ (by decide)]
      show parseItems f ('"' :: tl) [] = _
      rw [← htl]
      rw [parseItems_serStrs (s :: ss') [] rest f (by simp) h
        (by simp only [List.length_cons] at hf ⊢; omega)]
      simp

theorem parseMembers_three (k1 k2 k3 : Str) (v1 v2 v3 : Json) (s1 s2 s3 : Str)
    (b1 b2 b3 : Nat)
    (hk1 : plainStr k1 = true) (hk2 : plainStr k2 = true) (hk3 : plainStr k3 = true)
    (h1 : ∀ (f : Nat) (after : Str), b1 ≤ f → parseValue f (s1 ++ after) = some (v1, after))
    (h2 : ∀ (f : Nat) (after : Str), b2 ≤ f → parseValue f (s2 ++ after) = some (v2, after))
    (h3 : ∀ (f : Nat) (after : Str), b3 ≤ f → parseValue f (s3 ++ after) = some (v3, after))
    (acc : List (Str × Json)) (rest : Str) (fuel : Nat)
    (hf1 : b1 + 1 ≤ fuel) (hf2 : b2 + 2 ≤ fuel) (hf3 : b3 + 3 ≤ fuel) :
    parseMembers fuel
      (serStr k1 ++ ':' :: (s1 ++ ',' :: (serStr k2 ++ ':' :: (s2 ++ ',' ::
        (serStr k3 ++ ':' :: (s3 ++ rbraceChar :: rest)))))) acc
      = some (.obj (acc ++ [(k1, v1), (k2, v2), (k3, v3)]), rest) := by
  cases fuel with
  | zero => omega
  | succ f =>
    rw [serStr_cons, parseMembers, skipJWs_cons_neg _ _ (by decide)]
    try dsimp only
    rw [if_pos rfl, parseStrBody_plain k1 hk1 _]
    rw [Option.bind_eq_bind, Option.some_bind]
    try dsimp only
    rw [skipJWs_cons_neg _ _ (by decide)]
    try dsimp only
    rw [h1 f _ (by omega)]
    rw [Option.bind_eq_bind, Option.some_bind]
    try dsimp only
    rw [skipJWs_cons_neg _ _ (by decide)]
    try dsimp only
    cases f with
    | zero => omega
    | succ g =>
      rw [serStr_cons, parseMembers, skipJWs_cons_neg _ _ (by decide)]
      try dsimp only
      rw [if_pos rfl, parseStrBody_plain k2 hk2 _]
      rw [Option.bind_eq_bind, Option.some_bind]
      try dsimp only
      rw [skipJWs_cons_neg _ _ (by decide)]
      try dsimp only
      rw [h2 g _ (by omega)]
      rw [Option.bind_eq_bind, Option.some_bind]
      try dsimp only
      rw [skipJWs_cons_neg _ _ (by decide)]
      try dsimp only
      cases g with
      | zero => omega
      | succ e =>
        rw [serStr_cons, parseMembers, skipJWs_cons_neg _ _ (by decide)]
        try dsimp only
        rw [if_pos rfl, parseStrBody_plain k3 hk3 _]
        rw [Option.bind_eq_bind, Option.some_bind]
        try dsimp only
        rw [skipJWs_cons_neg _ _ (by decide)]
        try dsimp only
        rw [h3 e _ (by omega)]
        rw [Option.bind_eq_bind, Option.some_bind]
        try dsimp only
        rw [skipJWs_cons_neg _ _ (by decide : jWs rbraceChar = false)]
        try dsimp only
        rw [if_neg (by decide : ¬ rbraceChar = ','), if_pos rfl]
        simp

theorem serEffect_cons_form (e : EffectObj) (rest : Str) :
    serEffect e ++ rest = lbraceChar ::
      (serStr (str "effect") ++ ':' :: (serStr e.effect ++ ',' ::
        (serStr (str "explanation") ++ ':' :: (serStr e.explanation ++ ',' ::
          (serStr (str "sections") ++ ':' :: (serSecs e.sections ++ rbraceChar :: rest)))))) := by
  show (lbraceChar :: _ ++ [rbraceChar]) ++ rest = _
  simp [serEffect]

theorem plainEffect_spec (e : EffectObj) (h : plainEffect e = true) :
    plainStr e.effect = true ∧ plainStr e.explanation = true ∧
      ∀ s ∈ e.sections, plainStr s = true := by
  unfold plainEffect at h
  simp only [Bool.and_eq_true, List.all_eq_true] at h
  exact ⟨h.1.1, h.1.2, h.2⟩

theorem parseValue_serEffect (e : EffectObj) (h : plainEffect e = true) (rest : Str)
    (fuel : Nat) (hf : e.sections.length + 6 ≤ fuel) :
    parseValue fuel (serEffect e ++ rest) = some (effToJson e, rest) := by
  obtain ⟨hef, hex, hsecs⟩ := plainEffect_spec e h
  cases fuel with
  | zero => omega
  | succ f =>
    rw [serEffect_cons_form, parseValue,
      skipJWs_cons_neg _ _ (by decide : jWs lbraceChar = false)]
    dsimp only
    rw [if_neg (by decide : ¬ lbraceChar = '"'), if_neg (by decide : ¬ lbraceChar = '['),
      if_pos rfl]
    rw [serStr_cons, skipJWs_cons_neg _ _ (by decide)]
    show (if ('"' : Char) = rbraceChar then some (Json.obj [], _)
      else parseMembers f ('"' :: (str "effect" ++ '"' :: (':' :: (serStr e.effect ++ ',' ::
        (serStr (str "explanation") ++ ':' :: (serStr e.explanation ++ ',' ::
          (serStr (str "sections") ++ ':' :: (serSecs e.sections ++ rbraceChar :: rest)))))))) []) = _
    rw [if_neg (by decide : ¬ ('"' : Char) = rbraceChar)]
    rw [← serStr_cons]
    rw [parseMembers_three (str "effect") (str "explanation") (str "sections")
      (Json.str e.effect) (Json.str e.explanation) (Json.arr (e.sections.map Json.str))
      (serStr e.effect) (serStr e.explanation) (serSecs e.sections)
      1 1 (e.sections.length + 2)
      (by decide) (by decide) (by decide)
      (fun g after hg => parseValue_serStr e.effect hef after g hg)
      (fun g after hg => parseValue_serStr e.explanation hex after g hg)
      (fun g after hg => parseValue_serSecs e.sections hsecs after g hg)
      [] rest f (by omega) (by omega) (by omega)]
    rfl

theorem parseItems_serEffects (l : List EffectObj) :
    ∀ (acc : List Json) (rest : Str) (fuel : Nat), l ≠ [] →
      (∀ e ∈ l, plainEffect e = true) → sumSecs l + l.length + 6 ≤ fuel →
      parseItems fuel (joinWith [','] (l.map serEffect) ++ ']' :: rest) acc
        = some (.arr (acc ++ l.map effToJson), rest) := by
  induction l with
  | nil => intro _ _ _ hne; exact absurd rfl hne
  | cons e l' ih =>
    intro acc rest fuel _ hpl hfuel
    rw [sumSecs, List.length_cons] at hfuel
    cases fuel with
    | zero => omega
    | succ f =>
      cases l' with
      | nil =>
        show parseItems (f + 1) (serEffect e ++ ']' :: rest) acc = _
        rw [parseItems]
        rw [parseValue_serEffect e (hpl e (by simp)) (']' :: rest) f
          (by simp only [sumSecs] at hfuel; omega)]
        rw [Option.bind_eq_bind, Option.some_bind]
        try dsimp only
        rw [skipJWs_cons_neg _ _ (by decide)]
        try dsimp only
        rw [if_neg (by decide : ¬ (']' : Char) = ','), if_pos rfl]
        rfl
      | cons e2 l'' =>
        have hn : joinWith [','] ((e :: e2 :: l'').map serEffect) ++ ']' :: rest
            = serEffect e ++ ',' :: (joinWith [','] ((e2 :: l'').map serEffect) ++ ']' :: rest) := by
          show (serEffect e ++ [','] ++ joinWith [','] ((e2 :: l'').map serEffect)) ++ ']' :: rest = _
          simp
        rw [hn, parseItems]
        rw [parseValue_serEffect e (hpl e (by simp)) _ f (by omega)]
        rw [Option.bind_eq_bind, Option.some_bind]
        try dsimp only
        rw [skipJWs_cons_neg _ _ (by decide)]
        try dsimp only
        rw [ih (acc ++ [effToJson e]) rest f (by simp)
          (fun x hx => hpl x (List.mem_cons_of_mem e hx))
          (by rw [sumSecs, List.length_cons] at hfuel ⊢; omega)]
        simp

theorem serEffects_cons_form (l : List EffectObj) (rest : Str) :
    serEffects l ++ rest = '[' :: (joinWith [','] (l.map serEffect) ++ ']' :: rest) := by
  simp [serEffects]

theorem parseValue_serEffects (l : List EffectObj) (h : ∀ e ∈ l, plainEffect e = true)
    (rest : Str) (fuel : Nat) (hf : sumSecs l + l.length + 7 ≤ fuel) :
    parseValue fuel (serEffects l ++ rest) = some (.arr (l.map effToJson), rest) := by
  cases fuel with
  | zero => omega
  | succ f =>
    rw [serEffects_cons_form, parseValue, skipJWs_cons_neg _ _ (by decide)]
    dsimp only
    rw [if_neg (by decide : ¬ ('[' : Char) = '"'), if_pos rfl]
    cases l with
    | nil =>
      show (match skipJWs (']' :: rest) with
        | c2 :: rest2 =>
          if c2 = ']' then some (Json.arr [], rest2) else parseItems f (c2 :: rest2) []
        | [] => none) = _
      rw [skipJWs_cons_neg _ _ (by decide)]
      try dsimp only
      rw [if_pos rfl]
      rfl
    | cons e l' =>
      have hform : ∃ tl, joinWith [','] ((e :: l').map serEffect) ++ ']' :: rest
          = lbraceChar :: tl := by
        cases l' with
        | nil =>
          show ∃ tl, serEffect e ++ ']' :: rest = lbraceChar :: tl
          rw [serEffect_cons_form]
          exact ⟨_, rfl⟩
        | cons e2 l'' =>
          have hn : joinWith [','] ((e :: e2 :: l'').map serEffect) ++ ']' :: rest
              = serEffect e ++ ',' :: (joinWith [','] ((e2 :: l'').map serEffect) ++ ']' :: rest) := by
            show (serEffect e ++ [','] ++ joinWith [','] ((e2 :: l'').map serEffect)) ++ ']' :: rest = _
            simp
          rw [hn, serEffect_cons_form]
          exact ⟨_, rfl⟩
      obtain ⟨tl, htl⟩ := hform
      rw [htl, skipJWs_cons_neg _ _ (by decide : jWs lbraceChar = false)]
      try dsimp only
      rw [if_neg (by decide : ¬ lbraceChar = ']')]
      rw [← htl]
      rw [parseItems_serEffects (e :: l') [] rest f (by simp) h
        (by rw [sumSecs, List.length_cons] at hf ⊢; omega)]
      simp

theorem serStr_length (s : Str) : (serStr s).length = s.length + 2 := by
  simp [serStr]

theorem serSecs_length_ge (ss : List Str) : ss.length + 2 ≤ (serSecs ss).length := by
  induction ss with
  | nil => simp [serSecs, joinWith]
  | cons s ss' ih =>
    cases ss' with
    | nil => simp [serSecs, joinWith, serStr_length]
    | cons s2 ss'' =>
      have h1 : serSecs (s :: s2 :: ss'')
          = '[' :: ((serStr s ++ [','] ++ joinWith [','] ((s2 :: ss'').map serStr)) ++ [']']) := rfl
      have h2 : serSecs (s2 :: ss'')
          = '[' :: (joinWith [','] ((s2 :: ss'').map serStr) ++ [']']) := rfl
      rw [h2] at ih
      rw [h1]
      simp only [List.length_cons, List.length_append, serStr_length] at ih ⊢
      omega

theorem serEffect_length_ge (e : EffectObj) : e.sections.length + 8 ≤ (serEffect e).length := by
  have hs := serSecs_length_ge e.sections
  simp only [serEffect, List.length_cons, List.length_append, serStr_length]
  simp only [str, List.length_cons, List.length_nil]
  omega

theorem joinWith_serEffects_length_ge (l : List EffectObj) (hne : l ≠ []) :
    sumSecs l + l.length + 4 ≤ (joinWith [','] (l.map serEffect)).length := by
  induction l with
  | nil => exact absurd rfl hne
  | cons e l' ih =>
    cases l' with
    | nil =>
      have := serEffect_length_ge e
      simp only [List.map_cons, List.map_nil, joinWith, sumSecs, List.length_cons,
        List.length_nil]
      omega
    | cons e2 l'' =>
      have h1 : joinWith [','] ((e :: e2 :: l'').map serEffect)
          = serEffect e ++ [','] ++ joinWith [','] ((e2 :: l'').map serEffect) := rfl
      have he := serEffect_length_ge e
      have hih := ih (by simp)
      rw [h1]
      simp only [sumSecs, List.length_cons, List.length_append] at hih ⊢
      omega

theorem jsonParse_serEffects (l : List EffectObj) (h : ∀ e ∈ l, plainEffect e = true) :
    jsonParse (serEffects l) = some (.arr (l.map effToJson)) := by
  cases l with
  | nil => rfl
  | cons e l' =>
    have hb : sumSecs (e :: l') + (e :: l').length + 7 ≤ (serEffects (e :: l')).length + 1 := by
      have hjw := joinWith_serEffects_length_ge (e :: l') (by simp)
      have hlen : (serEffects (e :: l')).length
          = (joinWith [','] ((e :: l').map serEffect)).length + 2 := by
        simp [serEffects]
      omega
    unfold jsonParse
    have hpv : parseValue ((serEffects (e :: l')).length + 1) (serEffects (e :: l') ++ [])
        = some (.arr ((e :: l').map effToJson), []) :=
      parseValue_serEffects (e :: l') h [] _ hb
    rw [List.append_nil] at hpv
    rw [hpv]
    rfl

theorem goFilter_effToJson (vocab : List Str) (l : List EffectObj) :
    goFilter vocab (l.map effToJson)
      = some ((l.filter (fun e => decide (e.effect ∈ vocab))).map effToJson) := by
  induction l with
  | nil => rfl
  | cons e l' ih =>
    show goFilter vocab (effToJson e :: l'.map effToJson) = _
    rw [goFilter]
    have hk : keepTag vocab (effToJson e) = some (decide (e.effect ∈ vocab)) := by
      unfold keepTag effToJson jGet
      dsimp only
      rw [lookupL.eq_def]
      dsimp only
      rw [if_pos rfl]
      rfl
    rw [hk, Option.bind_eq_bind, Option.some_bind]
    try dsimp only
    rw [ih, Option.bind_eq_bind, Option.some_bind]
    try dsimp only
    rw [List.filter_cons]
    cases hd : decide (e.effect ∈ vocab) with
    | true => simp
    | false => simp

theorem bt_nmem_serStr (s : Str) (h : plainStr s = true) : btChar ∉ serStr s := by
  intro hm
  rw [serStr] at hm
  rcases List.mem_cons.mp hm with h1 | h2
  · exact absurd h1 (by decide)
  · rcases List.mem_append.mp h2 with h3 | h4
    · have hc : plainChar btChar = true := List.all_eq_true.mp h _ h3
      exact (plainChar_spec _ hc).2.2.1 rfl
    · simp at h4
      exact absurd h4 (by decide)

theorem mem_joinWith (sep : Str) (ls : List Str) (c : Char) (h : c ∈ joinWith sep ls) :
    c ∈ sep ∨ ∃ x ∈ ls, c ∈ x := by
  induction ls with
  | nil => simp [joinWith] at h
  | cons x ls' ih =>
    cases ls' with
    | nil =>
      rw [show joinWith sep [x] = x from rfl] at h
      exact Or.inr ⟨x, by simp, h⟩
    | cons y ls'' =>
      rw [show joinWith sep (x :: y :: ls'') = x ++ sep ++ joinWith sep (y :: ls'') from rfl] at h
      rcases List.mem_append.mp h with h1 | h2
      · rcases List.mem_append.mp h1 with h3 | h4
        · exact Or.inr ⟨x, by simp, h3⟩
        · exact Or.inl h4
      · rcases ih h2 with h5 | ⟨z, hz, hcz⟩
        · exact Or.inl h5
        · exact Or.inr ⟨z, List.mem_cons_of_mem x hz, hcz⟩

theorem bt_nmem_serSecs (ss : List Str) (h : ∀ s ∈ ss, plainStr s = true) :
    btChar ∉ serSecs ss := by
  intro hm
  rw [serSecs] at hm
  rcases List.mem_cons.mp hm with h1 | h2
  · exact absurd h1 (by decide)
  · rcases List.mem_append.mp h2 with h3 | h4
    · rcases mem_joinWith _ _ _ h3 with h5 | ⟨x, hx, hcx⟩
      · simp at h5
        exact absurd h5 (by decide)
      · obtain ⟨s, hs, hxs⟩ := List.mem_map.mp hx
        exact bt_nmem_serStr s (h s hs) (hxs ▸ hcx)
    · simp at h4
      exact absurd h4 (by decide)

theorem bt_nmem_serEffect (e : EffectObj) (h : plainEffect e = true) :
    btChar ∉ serEffect e := by
  obtain ⟨hef, hex, hsecs⟩ := plainEffect_spec e h
  have hA : ∀ (x y : Str), btChar ∉ x → btChar ∉ y → btChar ∉ x ++ y := by
    intro x y hx hy hm
    rcases List.mem_append.mp hm with hm1 | hm2
    · exact hx hm1
    · exact hy hm2
  have hv1 : btChar ∉ serStr e.effect := bt_nmem_serStr _ hef
  have hv2 : btChar ∉ serStr e.explanation := bt_nmem_serStr _ hex
  have hv3 : btChar ∉ serSecs e.sections := bt_nmem_serSecs _ hsecs
  have hk1 : btChar ∉ serStr (str "effect") := bt_nmem_serStr _ (by decide)
  have hk2 : btChar ∉ serStr (str "explanation") := bt_nmem_serStr _ (by decide)
  have hk3 : btChar ∉ serStr (str "sections") := bt_nmem_serStr _ (by decide)
  have hco : btChar ∉ ([':'] : Str) := by decide
  have hcm : btChar ∉ ([','] : Str) := by decide
  have hbig : btChar ∉ (serStr (str "effect") ++ [':'] ++ serStr e.effect ++ [','] ++
      serStr (str "explanation") ++ [':'] ++ serStr e.explanation ++ [','] ++
      serStr (str "sections") ++ [':'] ++ serSecs e.sections) :=
    hA _ _ (hA _ _ (hA _ _ (hA _ _ (hA _ _ (hA _ _ (hA _ _ (hA _ _ (hA _ _ (hA _ _
      hk1 hco) hv1) hcm) hk2) hco) hv2) hcm) hk3) hco) hv3
  intro hm
  rw [serEffect] at hm
  rcases List.mem_cons.mp hm with h1 | h2
  · exact absurd h1 (by decide)
  · rcases List.mem_append.mp h2 with h3 | h4
    · exact hbig h3
    · simp at h4
      exact absurd h4 (by decide)

theorem bt_nmem_serEffects (l : List EffectObj) (h : ∀ e ∈ l, plainEffect e = true) :
    btChar ∉ serEffects l := by
  intro hm
  rw [serEffects] at hm
  rcases List.mem_cons.mp hm with h1 | h2
  · exact absurd h1 (by decide)
  · rcases List.mem_append.mp h2 with h3 | h4
    · rcases mem_joinWith _ _ _ h3 with h5 | ⟨x, hx, hcx⟩
      · simp at h5
        exact absurd h5 (by decide)
      · obtain ⟨e, he, hxe⟩ := List.mem_map.mp hx
        exact bt_nmem_serEffect e (h e he) (hxe ▸ hcx)
    · simp at h4
      exact absurd h4 (by decide)

theorem isPrefixOf_append_self (p y : Str) : p.isPrefixOf (p ++ y) = true := by
  rw [List.isPrefixOf_iff_prefix]
  exact List.prefix_append p y

theorem npBJ_nl (X : Str) : (str "```json").isPrefixOf ('\n' :: X) = false := by
  rw [show str "```json" = btChar :: str "``json" from by decide]
  exact isPrefixOf_cons_false _ _ _ _ (by decide)

theorem npB_nl (X : Str) : (str "```").isPrefixOf ('\n' :: X) = false := by
  rw [show str "```" = btChar :: str "``" from by decide]
  exact isPrefixOf_cons_false _ _ _ _ (by decide)

theorem npBJ0 (X : Str) :
    (str "```json").isPrefixOf (btChar :: btChar :: btChar :: '\n' :: X) = false := by
  rw [show str "```json" = btChar :: btChar :: btChar :: 'j' :: str "son" from by decide]
  simp [List.isPrefixOf, show (('j' : Char) == '\n') = false from by decide]

theorem npBJ1 (X : Str) :
    (str "```json").isPrefixOf (btChar :: btChar :: '\n' :: X) = false := by
  rw [show str "```json" = btChar :: btChar :: btChar :: 'j' :: str "son" from by decide]
  simp [List.isPrefixOf, show ((btChar : Char) == '\n') = false from by decide]

theorem npBJ2 (X : Str) :
    (str "```json").isPrefixOf (btChar :: '\n' :: X) = false := by
  rw [show str "```json" = btChar :: btChar :: btChar :: 'j' :: str "son" from by decide]
  simp [List.isPrefixOf, show ((btChar : Char) == '\n') = false from by decide]

theorem serEffects_split (l : List EffectObj) :
    serEffects l = ('[' :: joinWith [','] (l.map serEffect)) ++ [']'] := by
  simp [serEffects]

theorem mem_pyRStrip (c : Char) (l : Str) (h : c ∉ l) : c ∉ pyRStrip l := by
  unfold pyRStrip
  intro hm
  rw [List.mem_reverse] at hm
  have h2 : c ∉ l.reverse := by rwa [List.mem_reverse]
  exact mem_dropWhile pyWs c _ h2 hm

theorem pyRStrip_append_rb (a b : Str) :
    pyRStrip ((a ++ [']']) ++ b) = (a ++ [']']) ++ pyRStrip b := by
  unfold pyRStrip
  rw [List.reverse_append, List.reverse_append]
  simp only [List.reverse_cons, List.reverse_nil, List.nil_append]
  rw [List.dropWhile_append]
  by_cases hbe : (b.reverse.dropWhile pyWs).isEmpty
  · rw [if_pos hbe]
    rw [List.singleton_append, List.dropWhile_cons, if_neg (by decide : ¬ pyWs ']' = true)]
    rw [List.isEmpty_iff] at hbe
    rw [hbe]
    simp
  · rw [if_neg hbe]
    rw [List.reverse_append]
    simp

theorem pyLStrip_cons_nl (x : Str) : pyLStrip ('\n' :: x) = pyLStrip x := by
  simp [pyLStrip, List.dropWhile_cons, show pyWs '\n' = true from by decide]

theorem pyLStrip_serEffects (l : List EffectObj) (b : Str) :
    pyLStrip (serEffects l ++ b) = serEffects l ++ b := by
  rw [show serEffects l ++ b = '[' :: ((joinWith [','] (l.map serEffect) ++ [']']) ++ b) from by
    simp [serEffects]]
  simp [pyLStrip, List.dropWhile_cons, show pyWs '[' = false from by decide]

theorem strip_trunc_stage (l : List EffectObj) (t2 : Str) (ht2 : ']' ∉ t2) (w : Str)
    (hw : w = [] ∨ w = ['\n']) :
    truncLastBr (pyStrip (w ++ (serEffects l ++ t2))) = serEffects l := by
  have hL : pyLStrip (w ++ (serEffects l ++ t2)) = serEffects l ++ t2 := by
    rcases hw with hw | hw
    · rw [hw, List.nil_append, pyLStrip_serEffects]
    · rw [hw, List.singleton_append, pyLStrip_cons_nl, pyLStrip_serEffects]
  unfold pyStrip
  rw [hL]
  rw [serEffects_split l, pyRStrip_append_rb]
  have ht3 : ']' ∉ pyRStrip t2 := mem_pyRStrip _ _ ht2
  rw [truncLastBr_append _ _ ht3]

theorem repair_of_wrapped (l : List EffectObj) (o t : Str)
    (ho : o = [] ∨ o = str "```json\n" ∨ o = str "```\n")
    (hl : ∀ e ∈ l, plainEffect e = true) (ht : ']' ∉ t) :
    repairEffect (o ++ serEffects l ++ t) = serEffects l := by
  have hbt : btChar ∉ serEffects l := bt_nmem_serEffects l hl
  have hBJ : str "```json" = btChar :: str "``json" := by decide
  have hB : str "```" = btChar :: str "``" := by decide
  have hpBJ_ne : str "```json" ≠ [] := by decide
  have hpB_ne : str "```" ≠ [] := by decide
  have hstage : ∃ w, (w = [] ∨ w = ['\n']) ∧
      replaceAll (str "```") [] (replaceAll (str "```json") [] (o ++ serEffects l ++ t))
        = w ++ (serEffects l ++
            replaceAll (str "```") [] (replaceAll (str "```json") [] t)) := by
    rcases ho with ho | ho | ho
    · refine ⟨[], Or.inl rfl, ?_⟩
      rw [ho, List.nil_append]
      rw [replaceAll_append_nmem _ [] btChar _ hBJ _ t hbt]
      rw [replaceAll_append_nmem _ [] btChar _ hB _ _ hbt]
      rfl
    · refine ⟨['\n'], Or.inr rfl, ?_⟩
      rw [ho]
      have hsplit : (str "```json\n" ++ serEffects l) ++ t
          = str "```json" ++ ('\n' :: (serEffects l ++ t)) := by
        rw [show str "```json\n" = str "```json" ++ ['\n'] from by decide]
        simp
      rw [hsplit]
      rw [replaceAll_pos _ [] _ hpBJ_ne (isPrefixOf_append_self _ _)]
      rw [List.drop_left, List.nil_append]
      rw [replaceAll_neg _ [] _ _ (npBJ_nl _)]
      rw [replaceAll_append_nmem _ [] btChar _ hBJ _ t hbt]
      rw [replaceAll_neg _ [] _ _ (npB_nl _)]
      rw [replaceAll_append_nmem _ [] btChar _ hB _ _ hbt]
      rfl
    · refine ⟨['\n'], Or.inr rfl, ?_⟩
      rw [ho]
      have hsplit : (str "```\n" ++ serEffects l) ++ t
          = btChar :: btChar :: btChar :: '\n' :: (serEffects l ++ t) := by
        rw [show str "```\n" = [btChar, btChar, btChar, '\n'] from by decide]
        simp
      rw [hsplit]
      rw [replaceAll_neg _ [] _ _ (npBJ0 _)]
      rw [replaceAll_neg _ [] _ _ (npBJ1 _)]
      rw [replaceAll_neg _ [] _ _ (npBJ2 _)]
      rw [replaceAll_neg _ [] _ _ (npBJ_nl _)]
      rw [replaceAll_append_nmem _ [] btChar _ hBJ _ t hbt]
      have hsplit2 : btChar :: btChar :: btChar :: '\n' ::
          (serEffects l ++ replaceAll (str "```json") [] t)
          = str "```" ++ ('\n' :: (serEffects l ++ replaceAll (str "```json") [] t)) := by
        rw [show str "```" = [btChar, btChar, btChar] from by decide]
        simp
      rw [hsplit2]
      rw [replaceAll_pos _ [] _ hpB_ne (isPrefixOf_append_self _ _)]
      rw [List.drop_left, List.nil_append]
      rw [replaceAll_neg _ [] _ _ (npB_nl _)]
      rw [replaceAll_append_nmem _ [] btChar _ hB _ _ hbt]
      rfl
  obtain ⟨w, hw, hws⟩ := hstage
  have ht2 : ']' ∉ replaceAll (str "```") [] (replaceAll (str "```json") [] t) :=
    mem_replaceAll_empty_repl _ _ _ (mem_replaceAll_empty_repl _ _ _ ht)
  unfold repairEffect
  rw [hws]
  exact strip_trunc_stage l _ ht2 w hw

/-- C6: the claim promises recovery for any code-fence language tag and
any well-formed array.  Two failures: a fence with a non-json language tag
leaves the tag text in front of the array, so the decode fails and the
unit is dropped; and a fence marker inside a string value is destroyed by
the replace step, so the recovered entry differs from the original (here
the explanation a three-backticks-json-b comes back as ab). -/
theorem c6_counterexample :
    decodeAndFilter [str "X"]
        (str "```python\n" ++ serEffects [⟨str "X", str "ok", []⟩] ++ str "\n```") = none ∧
    decodeAndFilter [str "X"] (serEffects [⟨str "X", str "a```jsonb", []⟩])
      = some [Json.obj [(str "effect", Json.str (str "X")),
          (str "explanation", Json.str (str "ab")),
          (str "sections", Json.arr [])]] := by
  constructor
  · rfl
  · rfl

/-- C6 (amended): for a well-formed JSON array of effect objects whose
string values contain only plain characters (printable, no quote,
backslash or backtick, so in particular no code-fence marker), wrapped in
no fence, a json-tagged fence, or an untagged fence, and followed by
trailing commentary containing no closing bracket, the repair-and-decode
pipeline recovers exactly the entries whose effect is in the controlled
vocabulary, in original order.  A fence opener with any other language
tag is not repaired (see the counterexample). -/
theorem c6_round_trip (vocab : List Str) (l : List EffectObj) (o t : Str)
    (ho : o = [] ∨ o = str "```json\n" ∨ o = str "```\n")
    (hl : ∀ e ∈ l, plainEffect e = true)
    (ht : ']' ∉ t) :
    decodeAndFilter vocab (o ++ serEffects l ++ t)
      = some ((l.filter (fun e => decide (e.effect ∈ vocab))).map effToJson) := by
  unfold decodeAndFilter
  rw [repair_of_wrapped l o t ho hl ht]
  rw [jsonParse_serEffects l hl]
  rw [Option.some_bind]
  show goFilter vocab (l.map effToJson) = _
  exact goFilter_effToJson vocab l

theorem c6_witness :
    decodeAndFilter [str "keep"]
        (str "```json\n" ++ serEffects [⟨str "keep", str "why", [str "s1"]⟩,
          ⟨str "drop", str "no", []⟩] ++ str "\nthanks")
      = some (([⟨str "keep", str "why", [str "s1"]⟩,
          (⟨str "drop", str "no", []⟩ : EffectObj)].filter
            (fun e => decide (e.effect ∈ [str "keep"]))).map effToJson) :=
  c6_round_trip [str "keep"]
    [⟨str "keep", str "why", [str "s1"]⟩, ⟨str "drop", str "no", []⟩]
    (str "```json\n") (str "\nthanks") (Or.inr (Or.inl rfl)) (by decide) (by decide)
